import Mathlib

/-!
# Bitboard: a verification development for `src/bitboard.c`

The program edits one `unsigned long long` (the bitboard) through key commands.
Bit `i` of the bitboard is the square in row `i / 8`, column `i % 8`.

Conventions of the embedding:

* `unsigned long long` values are natural numbers below `2 ^ 64`,
  `unsigned int` values are natural numbers below `2 ^ 32`; every
  `unsigned int` operation of the source is written with its reduction
  modulo `2 ^ 32`, every conversion to `int` is written out.
* A computation returns `Option`: `none` stands for a run the C standard
  leaves undefined (a shift `1ull << p` with `p ≥ 64`) or for a loop that has
  not left within the iteration budget given to it.
* A C string is the list of its characters before the terminating NUL.
* The loop of `main` is a step function on the variables `bitboard`,
  `cursorPos` and `state`; drawing, the clipboard process and the X11 exchange
  are left out, the text they deliver is an input of the step.
-/

namespace Bitboard

/-! ## Machine arithmetic -/

/-- Number of values of an `unsigned int`. -/
def UINT : Nat := 2 ^ 32

/-- Number of values of an `unsigned long long`. -/
def ULL : Nat := 2 ^ 64

/-- The `unsigned int` difference `a - b` (wraps modulo `2 ^ 32`). -/
def usub (a b : Nat) : Nat := (a + UINT - b % UINT) % UINT

/-- The `unsigned int` sum `a + b` (wraps modulo `2 ^ 32`). -/
def uadd (a b : Nat) : Nat := (a + b) % UINT

/-- Conversion of an `unsigned int` to `int` (two's complement). -/
def toInt (u : Nat) : Int := if u < 2 ^ 31 then (u : Int) else (u : Int) - 2 ^ 32

/-- Conversion of an `int` to `unsigned int`. -/
def toUnsigned (i : Int) : Nat := (i % 2 ^ 32).toNat

/-- The statement `bitboard ^= 1ull << p`. The shift is defined only for `p < 64`. -/
def flip (bitboard p : Nat) : Option Nat :=
  if p < 64 then some (bitboard ^^^ (1 <<< p)) else none

/-! ## The transforms of `main`'s switch -/

/-- Case `' '`, `'\n'`: `bitboard ^= 1ull << cursorPos`. -/
def mainToggleBit (bitboard cursorPos : Nat) : Option Nat :=
  flip bitboard cursorPos

/-- Loop of case `'F'`: `for (p = ..; p < 64; p++) bitboard ^= 1ull << p`. -/
def flipAllLoop : Nat → Nat → Nat → Option Nat
  | 0, _, _ => none
  | fuel + 1, p, bitboard =>
    if p < 64 then
      (flip bitboard p).bind fun b => flipAllLoop fuel (uadd p 1) b
    else some bitboard

/-- Case `'F'`: flip each bit on the bitboard (`p` starts at 0). -/
def mainFlipAll (bitboard : Nat) : Option Nat :=
  flipAllLoop 65 0 bitboard

/-- Loop of case `'r'`: `for (..; p < f; p++) bitboard ^= 1ull << p`. -/
def rankLoop : Nat → Nat → Nat → Nat → Option Nat
  | 0, _, _, _ => none
  | fuel + 1, p, f, bitboard =>
    if p < f then
      (flip bitboard p).bind fun b => rankLoop fuel (uadd p 1) f b
    else some bitboard

/-- Case `'r'`: `p = (cursorPos / 8u) * 8, f = p + 8`. -/
def mainRank (bitboard cursorPos : Nat) : Option Nat :=
  let p := (cursorPos / 8 * 8) % UINT
  let f := uadd p 8
  rankLoop 65 p f bitboard

/-- Loop of case `'f'`: `for (..; p < 64; p += 8) bitboard ^= 1ull << p`. -/
def fileLoop : Nat → Nat → Nat → Option Nat
  | 0, _, _ => none
  | fuel + 1, p, bitboard =>
    if p < 64 then
      (flip bitboard p).bind fun b => fileLoop fuel (uadd p 8) b
    else some bitboard

/-- Case `'f'`: `p = cursorPos % 8u`. -/
def mainFile (bitboard cursorPos : Nat) : Option Nat :=
  fileLoop 65 (cursorPos % 8) bitboard

/-- One line of case `'n'`: `if (cond) bitboard ^= 1ull << target`. -/
def flipIf (cond : Bool) (target : Nat) (bitboard : Nat) : Option Nat :=
  if cond then flip bitboard target else some bitboard

/-- Case `'n'`: the eight guarded flips, in the order of the source. -/
def mainKnight (bitboard cursorPos : Nat) : Option Nat :=
  let r := cursorPos / 8
  let c := cursorPos % 8
  (flipIf (decide (r > 0) && decide (c > 1)) (usub cursorPos 10) bitboard).bind fun b1 =>
  (flipIf (decide (r > 0) && decide (c < 6)) (usub cursorPos 6) b1).bind fun b2 =>
  (flipIf (decide (r > 1) && decide (c > 0)) (usub cursorPos 17) b2).bind fun b3 =>
  (flipIf (decide (r > 1) && decide (c < 7)) (usub cursorPos 15) b3).bind fun b4 =>
  (flipIf (decide (r < 6) && decide (c > 0)) (uadd cursorPos 15) b4).bind fun b5 =>
  (flipIf (decide (r < 6) && decide (c < 7)) (uadd cursorPos 17) b5).bind fun b6 =>
  (flipIf (decide (r < 7) && decide (c > 1)) (uadd cursorPos 6) b6).bind fun b7 =>
  flipIf (decide (r < 7) && decide (c < 6)) (uadd cursorPos 10) b7

/-! ## `diagonal` -/

/-- Loop of the rising diagonal:
`for (..; p < 64; p += 7) { *bitboard ^= 1ull << p; if (p % 8 == 0) break; }`. -/
def risingLoop : Nat → Nat → Nat → Option Nat
  | 0, _, _ => none
  | fuel + 1, p, bitboard =>
    if p < 64 then
      (flip bitboard p).bind fun b =>
        if p % 8 = 0 then some b else risingLoop fuel (uadd p 7) b
    else some bitboard

/-- Loop of the falling diagonal:
`for (..; p < 64; p += 9) { *bitboard ^= 1ull << p; if (p % 8 == 7) break; }`. -/
def fallingLoop : Nat → Nat → Nat → Option Nat
  | 0, _, _ => none
  | fuel + 1, p, bitboard =>
    if p < 64 then
      (flip bitboard p).bind fun b =>
        if p % 8 = 7 then some b else fallingLoop fuel (uadd p 9) b
    else some bitboard

/-- The rising half of `diagonal`: `int rn = c + r - 7`, start `(rn>0?8:1)*rn+7`. -/
def diagonalRising (pos bitboard : Nat) : Option Nat :=
  let r := pos / 8
  let c := pos % 8
  let rn : Int := toInt (usub (uadd c r) 7)
  let p := toUnsigned ((if rn > 0 then 8 else 1) * rn + 7)
  risingLoop 65 p bitboard

/-- The falling half of `diagonal`: `int fn = c - r`, start `(fn<0?-8:1)*fn`. -/
def diagonalFalling (pos bitboard : Nat) : Option Nat :=
  let r := pos / 8
  let c := pos % 8
  let fn : Int := toInt (usub c r)
  let p := toUnsigned ((if fn < 0 then -8 else 1) * fn)
  fallingLoop 65 p bitboard

/-- The function `diagonal(inp, pos, bitboard)`. -/
def diagonal (inp : Char) (pos bitboard : Nat) : Option Nat :=
  (if inp = 'r' ∨ inp = 'd' then diagonalRising pos bitboard else some bitboard).bind fun b =>
  if inp = 'f' ∨ inp = 'd' then diagonalFalling pos b else some b

/-! ## Text formats: `ulltostr`, the export text of case `'y'`

The C library functions `snprintf` and `strtoull` are not part of the
repository; they are written here as ISO C17 specifies them (7.21.6.1,
7.21.6.5 and 7.22.1.4), for the conversions and bases the source uses. -/

/-- Loop of `ulltostr`: `for (..; i > 0ull; i >>= 1) *out++ = num & i ? '1' : '0'`.
The characters written, in order. -/
def ulltostrLoop : Nat → Nat → Nat → Option (List Char)
  | 0, _, _ => none
  | fuel + 1, i, num =>
    if i > 0 then
      (ulltostrLoop fuel (i >>> 1) num).map fun out =>
        (if num &&& i ≠ 0 then '1' else '0') :: out
    else some []

/-- The function `ulltostr(num, out)`: `i` starts at `1ull << 63`; the result is
the string left in `out`. -/
def ulltostr (num : Nat) : Option (List Char) :=
  ulltostrLoop 65 (1 <<< 63) num

/-- The character `printf` writes for the digit `d` (lowercase above 9). -/
def digitChar (d : Nat) : Char :=
  if d < 10 then Char.ofNat (48 + d) else Char.ofNat (87 + d)

/-- Digits of `n` in `base`, most significant first, put in front of `acc`;
at least one digit is produced. -/
def digitsLoop (base : Nat) : Nat → Nat → List Char → List Char
  | 0, _, acc => acc
  | fuel + 1, n, acc =>
    if n / base = 0 then digitChar (n % base) :: acc
    else digitsLoop base fuel (n / base) (digitChar (n % base) :: acc)

/-- The conversion `%llu` of an `unsigned long long`: its decimal digits. -/
def fmtLlu (n : Nat) : List Char := digitsLoop 10 64 n []

/-- The conversion `%016llx` of an `unsigned long long`: its lowercase
hexadecimal digits, padded on the left with zeros to 16 characters. -/
def fmt016llx (n : Nat) : List Char :=
  let ds := digitsLoop 16 64 n []
  List.replicate (16 - ds.length) '0' ++ ds

/-- The string `snprintf(buf, size, ..)` leaves in `buf`, given the full output
of the format: at most `size - 1` characters are kept. -/
def snprintf (size : Nat) (output : List Char) : List Char := output.take (size - 1)

/-- Case `'y'`: the string `bitboardStr` handed to `yank`, for the state word
`state` (bit 2: binary, bit 4: decimal, otherwise hexadecimal). -/
def mainYankText (state bitboard : Nat) : Option (List Char) :=
  if state &&& 2 ≠ 0 then
    (ulltostr bitboard).map fun out => '0' :: 'b' :: out
  else if state &&& 4 ≠ 0 then
    some (snprintf 20 (fmtLlu bitboard))
  else
    some (snprintf 19 ('0' :: 'x' :: fmt016llx bitboard))

/-! ## Text import: `strtoull`, `paste`, case `'i'` -/

/-- The C function `isspace` in the "C" locale. -/
def isSpace (c : Char) : Bool :=
  c.toNat = 32 || (9 ≤ c.toNat && c.toNat ≤ 13)

/-- Value of a character as a digit: `0-9`, then letters of either case from 10. -/
def digitVal (c : Char) : Option Nat :=
  if 48 ≤ c.toNat ∧ c.toNat ≤ 57 then some (c.toNat - 48)
  else if 97 ≤ c.toNat ∧ c.toNat ≤ 122 then some (c.toNat - 87)
  else if 65 ≤ c.toNat ∧ c.toNat ≤ 90 then some (c.toNat - 55)
  else none

/-- Value of the longest prefix of `s` made of digits of `base`, continuing from
the value `acc` of the digits already read. -/
def parseDigits (base : Nat) : List Char → Nat → Nat
  | [], acc => acc
  | c :: cs, acc =>
    match digitVal c with
    | some d => if d < base then parseDigits base cs (acc * base + d) else acc
    | none => acc

/-- The value `strtoull(s, &end, base)` returns for `base` 2, 10 or 16 (ISO C17):
leading white space is skipped, a sign is accepted, `0x`/`0X` is accepted in
base 16 only, the longest run of digits of the base is read; no digit gives 0,
a value above `ULLONG_MAX` gives `ULLONG_MAX`, a minus sign negates modulo
`2 ^ 64`. -/
def strtoull (s : List Char) (base : Nat) : Nat :=
  let s1 := s.dropWhile isSpace
  let neg := s1.head? = some '-'
  let s2 := if s1.head? = some '-' ∨ s1.head? = some '+' then s1.tail else s1
  let s3 :=
    if base = 16 then
      match s2 with
      | '0' :: 'x' :: t => t
      | '0' :: 'X' :: t => t
      | _ => s2
    else s2
  let v := parseDigits base s3 0
  if v ≥ ULL then ULL - 1 else if neg then (ULL - v) % ULL else v

/-- The base `paste` and case `'i'` choose from the first two characters:
`base = 10; if (*s == '0') switch (*(s+1)) { case 'x': base = 16; case 'b': base = 2; }`. -/
def detectBase (s : List Char) : Nat :=
  match s with
  | '0' :: 'x' :: _ => 16
  | '0' :: 'b' :: _ => 2
  | _ => 10

/-- The function `paste`, once the selection has arrived as the string
`propRet`: the value stored in `*bitboard`,
`strtoull((char*)propRet, &endPropRet, base)`. -/
def paste (propRet : List Char) : Nat :=
  strtoull propRet (detectBase propRet)

/-- The string `getnstr(buf, n)` stores for the typed line: at most `n` characters. -/
def getnstr (n : Nat) (typed : List Char) : List Char := typed.take n

/-- Case `'i'`: the value stored in `bitboard` for the typed line,
`strtoull(base == 2 ? bitboardStr+2 : bitboardStr, &endStr, base)`. -/
def mainInput (typed : List Char) : Nat :=
  let bitboardStr := getnstr 19 typed
  let base := detectBase bitboardStr
  strtoull (if base = 2 then bitboardStr.drop 2 else bitboardStr) base

/-- Case `'I'`: the value stored in `bitboard` for the typed line,
`getnstr(bitboardStr, 64)` then `strtoull(bitboardStr, &endStr, 2)`. -/
def mainInputBinary (typed : List Char) : Nat :=
  strtoull (getnstr 64 typed) 2

/-! ## The loop of `main`

The key codes come from `<ncurses.h>`, which is not part of the repository;
they are the values that header gives them. -/

/-- The variables of `main` that the loop reads and writes. -/
structure Machine where
  /-- Variable `bitboard` (64 bits). -/
  bitboard : Nat
  /-- Variable `cursorPos` (an `unsigned int`). -/
  cursorPos : Nat
  /-- Variable `state` (bit 1: diagonal pending, bits 2 and 4: output base). -/
  state : Nat
  deriving DecidableEq

/-- What one turn of the loop consumes: the key returned by `getch()` at the head
of the loop and what the collaborators called in that turn deliver. The keys
read inside a turn (the line of `getnstr`, the key `help` waits for) belong to
that turn. -/
structure Event where
  /-- Value returned by `getch()`. -/
  input : Int
  /-- Whether `xdisplay` is non-null. -/
  xdisplay : Bool
  /-- Text of the selection handed to `paste`; `none` when the clipboard has no
  owner (`paste` returns without storing). -/
  selection : Option (List Char)
  /-- Line typed at the prompt of case `'i'` or `'I'`. -/
  typed : List Char

/-- How one turn of the loop ends. -/
inductive Outcome where
  /-- The loop goes on with these variables. -/
  | next (m : Machine)
  /-- The `break` of `'q'`: the loop is left with these variables. -/
  | quit (m : Machine)
  deriving DecidableEq

/-- The variables an outcome carries. -/
def Outcome.machine : Outcome → Machine
  | .next m => m
  | .quit m => m

/-- Code of a character key as `getch()` returns it. -/
def key (c : Char) : Int := (c.toNat : Int)

/-- `KEY_DOWN` of `<ncurses.h>` (octal 0402). -/
def KEY_DOWN : Int := 258

/-- `KEY_UP` of `<ncurses.h>` (octal 0403). -/
def KEY_UP : Int := 259

/-- `KEY_LEFT` of `<ncurses.h>` (octal 0404). -/
def KEY_LEFT : Int := 260

/-- `KEY_RIGHT` of `<ncurses.h>` (octal 0405). -/
def KEY_RIGHT : Int := 261

/-- `KEY_CLOSE` of `<ncurses.h>` (octal 0544). -/
def KEY_CLOSE : Int := 356

/-- `KEY_COPY` of `<ncurses.h>` (octal 0546). -/
def KEY_COPY : Int := 358

/-- `KEY_PREVIOUS` of `<ncurses.h>` (octal 0562). -/
def KEY_PREVIOUS : Int := 370

/-- Conversion of the `int input` to the parameter `char inp` of `diagonal`:
the value modulo `2 ^ 8` (with a signed `char` the codes 128 to 255 stand for
the negative values, which no comparison of `diagonal` tells apart). -/
def toChar (input : Int) : Char := Char.ofNat (input % 256).toNat

/-- Case `'o'`: the new value of `state`. -/
def cycleState (state : Nat) : Nat :=
  if state &&& 2 ≠ 0 then state ^^^ 6
  else if state &&& 4 ≠ 0 then state ^^^ 4
  else state ^^^ 2

/-- One turn of the `for (;;)` loop of `main`, from `input = getch()` on. -/
def mainStep (ev : Event) (m : Machine) : Option Outcome :=
  if m.state &&& 1 ≠ 0 then
    (diagonal (toChar ev.input) m.cursorPos m.bitboard).map fun b =>
      Outcome.next { m with bitboard := b, state := m.state ^^^ 1 }
  else if ev.input = key 'q' then some (Outcome.quit m)
  else if ev.input = KEY_LEFT ∨ ev.input = key 'h' then
    some (Outcome.next
      (if m.cursorPos % 8 > 0 then { m with cursorPos := usub m.cursorPos 1 } else m))
  else if ev.input = KEY_DOWN ∨ ev.input = key 'j' then
    some (Outcome.next
      (if m.cursorPos < 56 then { m with cursorPos := uadd m.cursorPos 8 } else m))
  else if ev.input = KEY_UP ∨ ev.input = key 'k' then
    some (Outcome.next
      (if m.cursorPos > 7 then { m with cursorPos := usub m.cursorPos 8 } else m))
  else if ev.input = KEY_RIGHT ∨ ev.input = key 'l' then
    some (Outcome.next
      (if m.cursorPos % 8 < 7 then { m with cursorPos := uadd m.cursorPos 1 } else m))
  else if ev.input = key ' ' ∨ ev.input = key '\n' then
    (mainToggleBit m.bitboard m.cursorPos).map fun b => Outcome.next { m with bitboard := b }
  else if ev.input = key 'c' then some (Outcome.next { m with bitboard := 0 })
  else if ev.input = key 'F' then
    (mainFlipAll m.bitboard).map fun b => Outcome.next { m with bitboard := b }
  else if ev.input = key 'r' then
    (mainRank m.bitboard m.cursorPos).map fun b => Outcome.next { m with bitboard := b }
  else if ev.input = key 'f' then
    (mainFile m.bitboard m.cursorPos).map fun b => Outcome.next { m with bitboard := b }
  else if ev.input = key 'd' then some (Outcome.next { m with state := 1 })
  else if ev.input = key 'n' then
    (mainKnight m.bitboard m.cursorPos).map fun b => Outcome.next { m with bitboard := b }
  else if ev.input = key 'p' then
    if ev.xdisplay then
      match ev.selection with
      | some propRet => some (Outcome.next { m with bitboard := paste propRet })
      | none => some (Outcome.next m)
    else some (Outcome.next m)
  else if ev.input = key 'y' then
    if ev.xdisplay then (mainYankText m.state m.bitboard).map fun _ => Outcome.next m
    else some (Outcome.next m)
  else if ev.input = key 'i' then
    some (Outcome.next { m with bitboard := mainInput ev.typed })
  else if ev.input = key 'I' then
    some (Outcome.next { m with bitboard := mainInputBinary ev.typed })
  else if ev.input = key 'o' then some (Outcome.next { m with state := cycleState m.state })
  else some (Outcome.next m)

/-- The loop of `main` over the events of a run: it stops at the `break`. -/
def mainLoop : Machine → List Event → Option Outcome
  | m, [] => some (Outcome.next m)
  | m, ev :: evs =>
    match mainStep ev m with
    | some (Outcome.next m1) => mainLoop m1 evs
    | some (Outcome.quit m1) => some (Outcome.quit m1)
    | none => none

/-- The variables of `main` before the loop: `bitboard = 0`, `cursorPos = 0`,
`state = 0`. -/
def initial : Machine := { bitboard := 0, cursorPos := 0, state := 0 }

/-- A turn in which only the key matters: no display, no selection, nothing typed. -/
def press (input : Int) : Event :=
  { input := input, xdisplay := false, selection := none, typed := [] }

/-- What holds of the variables of `main` throughout a run: the bitboard has 64
bits, the cursor is on the board, and `state` is one of 0 (hexadecimal),
1 (diagonal pending), 2 (binary), 4 (decimal). -/
def Inv (m : Machine) : Prop :=
  m.bitboard < 2 ^ 64 ∧ m.cursorPos < 64 ∧
    (m.state = 0 ∨ m.state = 1 ∨ m.state = 2 ∨ m.state = 4)

/-- The output bases. -/
inductive Base where
  | HEX
  | BINARY
  | DECIMAL
  deriving DecidableEq

/-- The output base a value of `state` selects, as `drawboard` and case `'y'`
test it: `state & 2` binary, else `state & 4` decimal, else hexadecimal. -/
def outputBase (state : Nat) : Base :=
  if state &&& 2 ≠ 0 then Base.BINARY
  else if state &&& 4 ≠ 0 then Base.DECIMAL
  else Base.HEX

/-- Whether the diagonal prefix is pending: `state & 0x1`. -/
def pendingDiagonal (state : Nat) : Bool := state &&& 1 ≠ 0

/-! ## Words of the specification about texts -/

/-- Character `c` is a digit of `base`. -/
def validDigit (base : Nat) (c : Char) : Bool :=
  match digitVal c with
  | some d => decide (d < base)
  | none => false

/-- Value of a string of digits in `base`, most significant digit first. -/
def digitsValue (base : Nat) (ds : List Char) : Nat :=
  ds.foldl (fun a c => a * base + (digitVal c).getD 0) 0

/-- Value of the longest valid numeric prefix of `text` in `base`, in the words
of the specification: after the prefix of the base when the text has it (`0x`
in base 16, `0b` in base 2), the longest run of digits of the base; 0 when
that run is empty. -/
def numericPrefixValue (base : Nat) (text : List Char) : Nat :=
  let body :=
    if (base = 16 ∧ ['0', 'x'] <+: text) ∨ (base = 2 ∧ ['0', 'b'] <+: text) then text.drop 2
    else text
  digitsValue base (body.takeWhile (validDigit base))

/-- The string does not start with white space or a sign. -/
def plainStart (s : List Char) : Prop :=
  ∀ c, s.head? = some c → isSpace c = false ∧ c ≠ '-' ∧ c ≠ '+'

instance (s : List Char) : Decidable (plainStart s) := by
  unfold plainStart
  cases s with
  | nil => exact isTrue (by simp)
  | cons a t =>
    exact decidable_of_iff (isSpace a = false ∧ a ≠ '-' ∧ a ≠ '+') (by simp)

/-- The string `strtoull` starts from in case `'i'`, for the string `s` kept by
`getnstr`: `base == 2 ? bitboardStr+2 : bitboardStr`. -/
def entryStart (s : List Char) : List Char :=
  if detectBase s = 2 then s.drop 2 else s

/-- Value of a number written in `base` behind white space and a sign, in the
words of the amended claim: leading white space is skipped, one sign is
accepted, the longest run of digits of the base that follows is read; the
value is limited to `2 ^ 64 - 1` and, behind a minus sign, negated modulo
`2 ^ 64`. -/
def signedRunValue (base : Nat) (s : List Char) : Nat :=
  let d := s.dropWhile isSpace
  let body := if d.head? = some '-' ∨ d.head? = some '+' then d.tail else d
  let v := digitsValue base (body.takeWhile (validDigit base))
  if v ≥ 2 ^ 64 then 2 ^ 64 - 1
  else if d.head? = some '-' then (2 ^ 64 - v) % 2 ^ 64
  else v

/-! ## Squares of the board -/

/-- Row of a square. -/
def row (i : Nat) : Nat := i / 8

/-- Column of a square. -/
def col (i : Nat) : Nat := i % 8

/-- Square `q` is a knight's move from `pos`: the row and column distances are
`(1, 2)` or `(2, 1)`. -/
def knightMove (pos q : Nat) : Prop :=
  (Int.natAbs ((row q : Int) - (row pos : Int)) = 1 ∧
      Int.natAbs ((col q : Int) - (col pos : Int)) = 2) ∨
    (Int.natAbs ((row q : Int) - (row pos : Int)) = 2 ∧
      Int.natAbs ((col q : Int) - (col pos : Int)) = 1)

instance (pos q : Nat) : Decidable (knightMove pos q) := by
  unfold knightMove; infer_instance

/-- Square `q` is on the rising diagonal (anti-diagonal) through `pos`. -/
def onRising (pos q : Nat) : Prop := row q + col q = row pos + col pos

/-- Square `q` is on the falling diagonal through `pos`. -/
def onFalling (pos q : Nat) : Prop :=
  (col q : Int) - (row q : Int) = (col pos : Int) - (row pos : Int)

/-- Square `q` is in the row of `pos`: one of `(pos/8)*8 .. (pos/8)*8+7`. -/
def inRank (pos q : Nat) : Prop := pos / 8 * 8 ≤ q ∧ q ≤ pos / 8 * 8 + 7

/-- Square `q` is in the column of `pos`: one of `pos%8, pos%8+8, .., pos%8+56`. -/
def inFile (pos q : Nat) : Prop := ∃ k, k < 8 ∧ q = pos % 8 + 8 * k

/-- Square `q` is on exactly one of the two diagonals through `pos`. -/
def onOneDiagonal (pos q : Nat) : Prop :=
  (onRising pos q ∧ ¬ onFalling pos q) ∨ (¬ onRising pos q ∧ onFalling pos q)

instance (pos q : Nat) : Decidable (onRising pos q) := by
  unfold onRising; infer_instance

instance (pos q : Nat) : Decidable (onFalling pos q) := by
  unfold onFalling; infer_instance

instance (pos q : Nat) : Decidable (inRank pos q) := by
  unfold inRank; infer_instance

instance (pos q : Nat) : Decidable (inFile pos q) := by
  unfold inFile; infer_instance

instance (pos q : Nat) : Decidable (onOneDiagonal pos q) := by
  unfold onOneDiagonal; infer_instance

/-- Checks, for every `pos < 64`, that the transform `f` applied to the empty
board returns a 64-bit mask whose set bits are exactly the squares `q < 64`
with `P pos q`. -/
def maskOk (f : Nat → Option Nat) (P : Nat → Nat → Prop) [∀ a b, Decidable (P a b)] : Bool :=
  (List.range 64).all fun pos =>
    match f pos with
    | some m =>
      decide (m < 2 ^ 64) && (List.range 64).all fun q => m.testBit q == decide (P pos q)
    | none => false

/-- A transform acts by XOR with a fixed mask: its result on `b` is `b ^^^ m`
where `m` is its result on the empty board (and it is undefined on `b` exactly
when it is undefined on the empty board). -/
def XorLinear (f : Nat → Option Nat) : Prop :=
  ∀ b, f b = (f 0).map fun m => b ^^^ m

/-! ## Lemmas: every transform XORs a fixed mask -/

theorem xorLinear_some : XorLinear some := by
  intro b; simp

theorem xorLinear_flip (p : Nat) : XorLinear (fun b => flip b p) := by
  intro b
  unfold flip
  split <;> simp

theorem xorLinear_bind {f g : Nat → Option Nat} (hf : XorLinear f) (hg : XorLinear g) :
    XorLinear (fun b => (f b).bind g) := by
  intro b
  show (f b).bind g = ((f 0).bind g).map fun m => b ^^^ m
  rw [hf b]
  cases h0 : f 0 with
  | none => simp
  | some m =>
    simp only [Option.map_some', Option.some_bind]
    rw [hg (b ^^^ m), hg m]
    cases g 0 with
    | none => simp
    | some k => simp [Nat.xor_assoc]

theorem xorLinear_ite (c : Prop) [Decidable c] {f g : Nat → Option Nat}
    (hf : XorLinear f) (hg : XorLinear g) : XorLinear (fun b => if c then f b else g b) := by
  by_cases h : c
  · simpa [h] using hf
  · simpa [h] using hg

theorem xorLinear_flipIf (c : Bool) (t : Nat) : XorLinear (flipIf c t) := by
  cases c
  · exact xorLinear_some
  · exact xorLinear_flip t

theorem xorLinear_flipAllLoop (fuel p : Nat) : XorLinear (flipAllLoop fuel p) := by
  induction fuel generalizing p with
  | zero => intro b; simp [flipAllLoop]
  | succ n ih =>
    show XorLinear fun b => flipAllLoop (n + 1) p b
    simp only [flipAllLoop]
    exact xorLinear_ite _ (xorLinear_bind (xorLinear_flip p) (ih _)) xorLinear_some

theorem xorLinear_rankLoop (fuel p f : Nat) : XorLinear (rankLoop fuel p f) := by
  induction fuel generalizing p with
  | zero => intro b; simp [rankLoop]
  | succ n ih =>
    show XorLinear fun b => rankLoop (n + 1) p f b
    simp only [rankLoop]
    exact xorLinear_ite _ (xorLinear_bind (xorLinear_flip p) (ih _)) xorLinear_some

theorem xorLinear_fileLoop (fuel p : Nat) : XorLinear (fileLoop fuel p) := by
  induction fuel generalizing p with
  | zero => intro b; simp [fileLoop]
  | succ n ih =>
    show XorLinear fun b => fileLoop (n + 1) p b
    simp only [fileLoop]
    exact xorLinear_ite _ (xorLinear_bind (xorLinear_flip p) (ih _)) xorLinear_some

theorem xorLinear_risingLoop (fuel p : Nat) : XorLinear (risingLoop fuel p) := by
  induction fuel generalizing p with
  | zero => intro b; simp [risingLoop]
  | succ n ih =>
    show XorLinear fun b => risingLoop (n + 1) p b
    simp only [risingLoop]
    exact xorLinear_ite _
      (xorLinear_bind (xorLinear_flip p) (xorLinear_ite _ xorLinear_some (ih _)))
      xorLinear_some

theorem xorLinear_fallingLoop (fuel p : Nat) : XorLinear (fallingLoop fuel p) := by
  induction fuel generalizing p with
  | zero => intro b; simp [fallingLoop]
  | succ n ih =>
    show XorLinear fun b => fallingLoop (n + 1) p b
    simp only [fallingLoop]
    exact xorLinear_ite _
      (xorLinear_bind (xorLinear_flip p) (xorLinear_ite _ xorLinear_some (ih _)))
      xorLinear_some

theorem xorLinear_mainToggleBit (pos : Nat) : XorLinear (fun b => mainToggleBit b pos) :=
  xorLinear_flip pos

theorem xorLinear_mainFlipAll : XorLinear mainFlipAll :=
  xorLinear_flipAllLoop 65 0

theorem xorLinear_mainRank (pos : Nat) : XorLinear (fun b => mainRank b pos) :=
  xorLinear_rankLoop 65 _ _

theorem xorLinear_mainFile (pos : Nat) : XorLinear (fun b => mainFile b pos) :=
  xorLinear_fileLoop 65 _

theorem xorLinear_mainKnight (pos : Nat) : XorLinear (fun b => mainKnight b pos) := by
  unfold mainKnight
  exact xorLinear_bind (xorLinear_flipIf _ _) <| xorLinear_bind (xorLinear_flipIf _ _) <|
    xorLinear_bind (xorLinear_flipIf _ _) <| xorLinear_bind (xorLinear_flipIf _ _) <|
    xorLinear_bind (xorLinear_flipIf _ _) <| xorLinear_bind (xorLinear_flipIf _ _) <|
    xorLinear_bind (xorLinear_flipIf _ _) (xorLinear_flipIf _ _)

theorem xorLinear_diagonalRising (pos : Nat) : XorLinear (diagonalRising pos) :=
  xorLinear_risingLoop 65 _

theorem xorLinear_diagonalFalling (pos : Nat) : XorLinear (diagonalFalling pos) :=
  xorLinear_fallingLoop 65 _

theorem xorLinear_diagonal (inp : Char) (pos : Nat) : XorLinear (diagonal inp pos) := by
  unfold diagonal
  exact xorLinear_bind
    (xorLinear_ite _ (xorLinear_diagonalRising pos) xorLinear_some)
    (xorLinear_ite _ (xorLinear_diagonalFalling pos) xorLinear_some)

/-- A transform that XORs a fixed mask and is defined on the empty board is an
involution. -/
theorem involution_of_xorLinear {f : Nat → Option Nat} (hf : XorLinear f)
    (h0 : (f 0).isSome = true) (b : Nat) : (f b).bind f = some b := by
  obtain ⟨m, hm⟩ := Option.isSome_iff_exists.mp h0
  rw [hf b, hm]
  simp only [Option.map_some', Option.some_bind]
  rw [hf (b ^^^ m), hm]
  simp [Nat.xor_assoc]

/-- From the finite check `maskOk` to the bitwise description of a transform on
an arbitrary board. -/
theorem changed_iff_of_maskOk (f : Nat → Nat → Option Nat) (P : Nat → Nat → Prop)
    [∀ a b, Decidable (P a b)] (hlin : ∀ pos, XorLinear (fun b => f b pos))
    (hok : maskOk (f 0) P = true) (bits pos q : Nat) (hpos : pos < 64) :
    ∃ r, f bits pos = some r ∧ (r.testBit q ≠ bits.testBit q ↔ q < 64 ∧ P pos q) := by
  have h := (List.all_eq_true.mp hok) pos (List.mem_range.mpr hpos)
  cases h0 : f 0 pos with
  | none => simp [h0] at h
  | some m =>
    simp only [h0, Bool.and_eq_true, decide_eq_true_eq, List.all_eq_true, List.mem_range,
      beq_iff_eq] at h
    refine ⟨bits ^^^ m, ?_, ?_⟩
    · have := hlin pos bits
      simpa [h0] using this
    · rw [Nat.testBit_xor]
      by_cases hq : q < 64
      · have hq2 := h.2 q hq
        cases hb : bits.testBit q <;> by_cases hP : P pos q <;> simp [hq2, hP, hq]
      · have hm : m.testBit q = false :=
          Nat.testBit_lt_two_pow (lt_of_lt_of_le h.1 (Nat.pow_le_pow_right (by decide) (by omega)))
        cases hb : bits.testBit q <;> simp [hm, hq]

theorem maskOk_mainKnight : maskOk (mainKnight 0) knightMove = true := by decide

theorem maskOk_mainRank : maskOk (mainRank 0) inRank = true := by decide

theorem maskOk_mainFile : maskOk (mainFile 0) inFile = true := by decide

theorem maskOk_rising : maskOk (fun pos => diagonal 'r' pos 0) onRising = true := by decide

theorem maskOk_falling : maskOk (fun pos => diagonal 'f' pos 0) onFalling = true := by decide

theorem isSome_of_maskOk (f : Nat → Option Nat) (P : Nat → Nat → Prop)
    [∀ a b, Decidable (P a b)] (hok : maskOk f P = true) (pos : Nat) (hpos : pos < 64) :
    (f pos).isSome = true := by
  have h := (List.all_eq_true.mp hok) pos (List.mem_range.mpr hpos)
  cases h0 : f pos with
  | none => simp [h0] at h
  | some m => rfl

theorem mainFlipAll_zero : mainFlipAll 0 = some (2 ^ 64 - 1) := by decide

theorem knightMove_corner : ∀ q, q < 64 → (knightMove 0 q ↔ q = 10 ∨ q = 17) := by decide

theorem onRising_corner :
    ∀ q, q < 64 → (onRising 7 q ↔ q ∈ [7, 14, 21, 28, 35, 42, 49, 56]) := by decide

theorem onFalling_corner :
    ∀ q, q < 64 → (onFalling 0 q ↔ q ∈ [0, 9, 18, 27, 36, 45, 54, 63]) := by decide

/-! ## The transforms: claims C1 to C6 -/

/-- C1: for every board `bits` and every position `pos` in `[0,63]`, each of the
seven transforms (toggle bit, invert all, rank, file, rising diagonal, falling
diagonal, knight targets) applied twice in a row at `pos` is defined and returns
exactly `bits`. -/
theorem toggle_twice_returns_bits (bits pos : Nat) (hpos : pos < 64) :
    (mainToggleBit bits pos).bind (fun b => mainToggleBit b pos) = some bits ∧
    (mainFlipAll bits).bind mainFlipAll = some bits ∧
    (mainRank bits pos).bind (fun b => mainRank b pos) = some bits ∧
    (mainFile bits pos).bind (fun b => mainFile b pos) = some bits ∧
    (diagonal 'r' pos bits).bind (diagonal 'r' pos) = some bits ∧
    (diagonal 'f' pos bits).bind (diagonal 'f' pos) = some bits ∧
    (mainKnight bits pos).bind (fun b => mainKnight b pos) = some bits := by
  refine ⟨?_, ?_, ?_, ?_, ?_, ?_, ?_⟩
  · exact involution_of_xorLinear (xorLinear_mainToggleBit pos)
      (by simp [mainToggleBit, flip, hpos]) bits
  · exact involution_of_xorLinear xorLinear_mainFlipAll (by rw [mainFlipAll_zero]; rfl) bits
  · exact involution_of_xorLinear (xorLinear_mainRank pos)
      (isSome_of_maskOk _ _ maskOk_mainRank pos hpos) bits
  · exact involution_of_xorLinear (xorLinear_mainFile pos)
      (isSome_of_maskOk _ _ maskOk_mainFile pos hpos) bits
  · exact involution_of_xorLinear (xorLinear_diagonal 'r' pos)
      (isSome_of_maskOk _ _ maskOk_rising pos hpos) bits
  · exact involution_of_xorLinear (xorLinear_diagonal 'f' pos)
      (isSome_of_maskOk _ _ maskOk_falling pos hpos) bits
  · exact involution_of_xorLinear (xorLinear_mainKnight pos)
      (isSome_of_maskOk _ _ maskOk_mainKnight pos hpos) bits

theorem toggle_twice_returns_bits_witness :
    (mainToggleBit 0x8100000000000081 27).bind (fun b => mainToggleBit b 27)
        = some 0x8100000000000081 ∧
    (mainFlipAll 0x8100000000000081).bind mainFlipAll = some 0x8100000000000081 ∧
    (mainRank 0x8100000000000081 27).bind (fun b => mainRank b 27)
        = some 0x8100000000000081 ∧
    (mainFile 0x8100000000000081 27).bind (fun b => mainFile b 27)
        = some 0x8100000000000081 ∧
    (diagonal 'r' 27 0x8100000000000081).bind (diagonal 'r' 27) = some 0x8100000000000081 ∧
    (diagonal 'f' 27 0x8100000000000081).bind (diagonal 'f' 27) = some 0x8100000000000081 ∧
    (mainKnight 0x8100000000000081 27).bind (fun b => mainKnight b 27)
        = some 0x8100000000000081 :=
  toggle_twice_returns_bits 0x8100000000000081 27 (by decide)

/-- C2: for every board `bits` and every `pos` in `[0,63]`, the knight command
is defined and changes bit `q` if and only if `q` is a square of the board
(`q < 64`) that is a knight's move from `pos`; at `pos = 0` exactly the bits
10 and 17 change. -/
theorem knight_changes_exactly_knight_moves (bits pos q : Nat) (hpos : pos < 64) :
    (∃ r, mainKnight bits pos = some r ∧
      (r.testBit q ≠ bits.testBit q ↔ q < 64 ∧ knightMove pos q)) ∧
    (∃ r, mainKnight bits 0 = some r ∧
      (r.testBit q ≠ bits.testBit q ↔ q = 10 ∨ q = 17)) := by
  refine ⟨changed_iff_of_maskOk _ _ xorLinear_mainKnight maskOk_mainKnight bits pos q hpos, ?_⟩
  obtain ⟨r, hr, hiff⟩ :=
    changed_iff_of_maskOk _ _ xorLinear_mainKnight maskOk_mainKnight bits 0 q (by decide)
  refine ⟨r, hr, hiff.trans ⟨fun h => (knightMove_corner q h.1).mp h.2, fun h => ?_⟩⟩
  have hq : q < 64 := by omega
  exact ⟨hq, (knightMove_corner q hq).mpr h⟩

theorem knight_changes_exactly_knight_moves_witness :
    (∃ r, mainKnight 5 63 = some r ∧
      (r.testBit 46 ≠ Nat.testBit 5 46 ↔ 46 < 64 ∧ knightMove 63 46)) ∧
    (∃ r, mainKnight 5 0 = some r ∧
      (r.testBit 46 ≠ Nat.testBit 5 46 ↔ 46 = 10 ∨ 46 = 17)) :=
  knight_changes_exactly_knight_moves 5 63 46 (by decide)

/-- C3: for every board `bits` and every `pos` in `[0,63]`, `diagonal` with
input `'r'` is defined and changes bit `q` if and only if `q` is a square of
the board with `row q + col q = row pos + col pos`; at `pos = 7` exactly the
bits 7, 14, 21, 28, 35, 42, 49, 56 change. -/
theorem rising_changes_exactly_antidiagonal (bits pos q : Nat) (hpos : pos < 64) :
    (∃ r, diagonal 'r' pos bits = some r ∧
      (r.testBit q ≠ bits.testBit q ↔ q < 64 ∧ row q + col q = row pos + col pos)) ∧
    (∃ r, diagonal 'r' 7 bits = some r ∧
      (r.testBit q ≠ bits.testBit q ↔ q ∈ [7, 14, 21, 28, 35, 42, 49, 56])) := by
  have key := changed_iff_of_maskOk (fun b p => diagonal 'r' p b) onRising
    (fun p => xorLinear_diagonal 'r' p) maskOk_rising bits
  refine ⟨key pos q hpos, ?_⟩
  obtain ⟨r, hr, hiff⟩ := key 7 q (by decide)
  refine ⟨r, hr, hiff.trans ⟨fun h => (onRising_corner q h.1).mp h.2, fun h => ?_⟩⟩
  have hq : q < 64 := by
    simp only [List.mem_cons, List.mem_singleton, List.not_mem_nil, or_false] at h
    omega
  exact ⟨hq, (onRising_corner q hq).mpr h⟩

theorem rising_changes_exactly_antidiagonal_witness :
    (∃ r, diagonal 'r' 20 1 = some r ∧
      (r.testBit 34 ≠ Nat.testBit 1 34 ↔ 34 < 64 ∧ row 34 + col 34 = row 20 + col 20)) ∧
    (∃ r, diagonal 'r' 7 1 = some r ∧
      (r.testBit 34 ≠ Nat.testBit 1 34 ↔ 34 ∈ [7, 14, 21, 28, 35, 42, 49, 56])) :=
  rising_changes_exactly_antidiagonal 1 20 34 (by decide)

/-- C4: for every board `bits` and every `pos` in `[0,63]`, `diagonal` with
input `'f'` is defined and changes bit `q` if and only if `q` is a square of
the board with `col q - row q = col pos - row pos`; at `pos = 0` exactly the
bits 0, 9, 18, 27, 36, 45, 54, 63 change. -/
theorem falling_changes_exactly_diagonal (bits pos q : Nat) (hpos : pos < 64) :
    (∃ r, diagonal 'f' pos bits = some r ∧
      (r.testBit q ≠ bits.testBit q ↔
        q < 64 ∧ (col q : Int) - (row q : Int) = (col pos : Int) - (row pos : Int))) ∧
    (∃ r, diagonal 'f' 0 bits = some r ∧
      (r.testBit q ≠ bits.testBit q ↔ q ∈ [0, 9, 18, 27, 36, 45, 54, 63])) := by
  have key := changed_iff_of_maskOk (fun b p => diagonal 'f' p b) onFalling
    (fun p => xorLinear_diagonal 'f' p) maskOk_falling bits
  refine ⟨key pos q hpos, ?_⟩
  obtain ⟨r, hr, hiff⟩ := key 0 q (by decide)
  refine ⟨r, hr, hiff.trans ⟨fun h => (onFalling_corner q h.1).mp h.2, fun h => ?_⟩⟩
  have hq : q < 64 := by
    simp only [List.mem_cons, List.mem_singleton, List.not_mem_nil, or_false] at h
    omega
  exact ⟨hq, (onFalling_corner q hq).mpr h⟩

theorem falling_changes_exactly_diagonal_witness :
    (∃ r, diagonal 'f' 57 1 = some r ∧
      (r.testBit 48 ≠ Nat.testBit 1 48 ↔
        48 < 64 ∧ (col 48 : Int) - (row 48 : Int) = (col 57 : Int) - (row 57 : Int))) ∧
    (∃ r, diagonal 'f' 0 1 = some r ∧
      (r.testBit 48 ≠ Nat.testBit 1 48 ↔ 48 ∈ [0, 9, 18, 27, 36, 45, 54, 63])) :=
  falling_changes_exactly_diagonal 1 57 48 (by decide)

/-- C5: for every board `bits` and every cursor position `pos` in `[0,63]`, the
rank command is defined and changes bit `q` if and only if `q` is one of the
positions `(pos/8)*8 .. (pos/8)*8+7`. -/
theorem rank_changes_exactly_row (bits pos q : Nat) (hpos : pos < 64) :
    ∃ r, mainRank bits pos = some r ∧
      (r.testBit q ≠ bits.testBit q ↔ pos / 8 * 8 ≤ q ∧ q ≤ pos / 8 * 8 + 7) := by
  obtain ⟨r, hr, hiff⟩ :=
    changed_iff_of_maskOk _ _ xorLinear_mainRank maskOk_mainRank bits pos q hpos
  refine ⟨r, hr, hiff.trans ⟨fun h => h.2, fun h => ⟨?_, h⟩⟩⟩
  omega

theorem rank_changes_exactly_row_witness :
    ∃ r, mainRank 1 19 = some r ∧
      (r.testBit 23 ≠ Nat.testBit 1 23 ↔ 19 / 8 * 8 ≤ 23 ∧ 23 ≤ 19 / 8 * 8 + 7) :=
  rank_changes_exactly_row 1 19 23 (by decide)

/-- C6: for every board `bits` and every cursor position `pos` in `[0,63]`, the
file command is defined and changes bit `q` if and only if `q` is one of the
positions `pos%8, pos%8+8, .., pos%8+56`. -/
theorem file_changes_exactly_column (bits pos q : Nat) (hpos : pos < 64) :
    ∃ r, mainFile bits pos = some r ∧
      (r.testBit q ≠ bits.testBit q ↔ ∃ k, k < 8 ∧ q = pos % 8 + 8 * k) := by
  obtain ⟨r, hr, hiff⟩ :=
    changed_iff_of_maskOk _ _ xorLinear_mainFile maskOk_mainFile bits pos q hpos
  refine ⟨r, hr, hiff.trans ⟨fun h => h.2, fun h => ⟨?_, h⟩⟩⟩
  obtain ⟨k, hk, rfl⟩ := h
  omega

theorem file_changes_exactly_column_witness :
    ∃ r, mainFile 1 19 = some r ∧
      (r.testBit 59 ≠ Nat.testBit 1 59 ↔ ∃ k, k < 8 ∧ 59 = 19 % 8 + 8 * k) :=
  file_changes_exactly_column 1 19 59 (by decide)

/-! ## Lemmas on the text formats -/

theorem digitVal_digitChar : ∀ d, d < 16 → digitVal (digitChar d) = some d := by decide

theorem parseDigits_digitChar (base d : Nat) (hb : base ≤ 16) (hd : d < base)
    (cs : List Char) (acc : Nat) :
    parseDigits base (digitChar d :: cs) acc = parseDigits base cs (acc * base + d) := by
  simp [parseDigits, digitVal_digitChar d (by omega), hd]

/-- Reading back the digits written by `digitsLoop` gives the number, when the
iteration budget covers its length. -/
theorem parseDigits_digitsLoop (base : Nat) (hb2 : 2 ≤ base) (hb : base ≤ 16) :
    ∀ fuel n acc, 0 < fuel → n < base ^ fuel →
      parseDigits base (digitsLoop base fuel n acc) 0 = parseDigits base acc n := by
  intro fuel
  induction fuel with
  | zero => intro n acc h; omega
  | succ k ih =>
    intro n acc _ hn
    have hmod : n % base < base := Nat.mod_lt _ (by omega)
    simp only [digitsLoop]
    split
    · rename_i hdiv
      rw [parseDigits_digitChar base _ hb hmod]
      have : n < base := (Nat.div_eq_zero_iff (by omega)).mp hdiv
      rw [Nat.mod_eq_of_lt this]; simp
    · rename_i hdiv
      have hlt : n / base < base ^ k := by
        rw [Nat.div_lt_iff_lt_mul (by omega)]
        rw [pow_succ] at hn; exact hn
      have hk : 0 < k := by
        rcases Nat.eq_zero_or_pos k with h | h
        · subst h; simp at hlt; exact absurd hlt hdiv
        · exact h
      rw [ih _ _ hk hlt, parseDigits_digitChar base _ hb hmod, Nat.div_add_mod']

/-- A number below `base ^ k` is written with at most `k` digits. -/
theorem length_digitsLoop_le (base : Nat) (hb2 : 2 ≤ base) :
    ∀ fuel n acc k, 0 < k → n < base ^ k →
      (digitsLoop base fuel n acc).length ≤ k + acc.length := by
  intro fuel
  induction fuel with
  | zero => intro n acc k _ _; simp [digitsLoop]
  | succ f ih =>
    intro n acc k hk hn
    simp only [digitsLoop]
    split
    · simp; omega
    · rename_i hdiv
      obtain ⟨k', rfl⟩ : ∃ k', k = k' + 1 := ⟨k - 1, by omega⟩
      have hlt : n / base < base ^ k' := by
        rw [Nat.div_lt_iff_lt_mul (by omega)]
        rw [pow_succ] at hn; exact hn
      have hk' : 0 < k' := by
        rcases Nat.eq_zero_or_pos k' with h | h
        · subst h; simp at hlt; exact absurd hlt hdiv
        · exact h
      have := ih (n / base) (digitChar (n % base) :: acc) k' hk' hlt
      simp only [List.length_cons] at this
      omega

theorem parseDigits_replicate_zero (base : Nat) (hb : 0 < base) (k : Nat) (l : List Char) :
    parseDigits base (List.replicate k '0' ++ l) 0 = parseDigits base l 0 := by
  induction k with
  | zero => simp
  | succ k ih =>
    have h0 : digitVal '0' = some 0 := by decide
    simp [List.replicate_succ, parseDigits, h0, hb, ih]

/-- The loop of `ulltostr` ends within the budget. -/
theorem ulltostrLoop_isSome (num : Nat) :
    ∀ fuel i, i < 2 ^ fuel → (ulltostrLoop (fuel + 1) i num).isSome = true := by
  intro fuel
  induction fuel with
  | zero =>
    intro i hi
    have : i = 0 := by simpa using hi
    subst this; simp [ulltostrLoop]
  | succ k ih =>
    intro i hi
    rw [ulltostrLoop]
    split
    · have : i >>> 1 < 2 ^ k := by
        rw [Nat.shiftRight_eq_div_pow, Nat.div_lt_iff_lt_mul (by decide)]
        rw [pow_succ] at hi; simpa using hi
      simpa using ih _ this
    · rfl

theorem ulltostr_isSome (num : Nat) : (ulltostr num).isSome = true :=
  ulltostrLoop_isSome num 64 _ (by decide)

/-- The import parser reads `0x` followed by digits in base 16. -/
theorem paste_hex (t : List Char) : paste ('0' :: 'x' :: t) =
    (if parseDigits 16 t 0 ≥ ULL then ULL - 1 else parseDigits 16 t 0) := by
  have hs : isSpace '0' = false := by decide
  have h1 : (some '0' : Option Char) ≠ some '-' := by decide
  have h2 : (some '0' : Option Char) ≠ some '+' := by decide
  simp [paste, detectBase, strtoull, List.dropWhile, hs, h1, h2]

theorem digitChar_decimal : ∀ d, d < 10 →
    isSpace (digitChar d) = false ∧ digitChar d ≠ '-' ∧ digitChar d ≠ '+' ∧
      digitChar d ≠ 'x' ∧ digitChar d ≠ 'b' := by decide

/-- Every character written by `digitsLoop` is a digit of the base or comes
from the accumulator. -/
theorem mem_digitsLoop (base : Nat) (hb : 0 < base) :
    ∀ fuel n acc c, c ∈ digitsLoop base fuel n acc →
      c ∈ acc ∨ ∃ d, d < base ∧ c = digitChar d := by
  intro fuel
  induction fuel with
  | zero => intro n acc c h; exact Or.inl (by simpa [digitsLoop] using h)
  | succ k ih =>
    intro n acc c h
    simp only [digitsLoop] at h
    split at h
    · rcases List.mem_cons.mp h with h | h
      · exact Or.inr ⟨n % base, Nat.mod_lt _ hb, h⟩
      · exact Or.inl h
    · rcases ih _ _ _ h with h | h
      · rcases List.mem_cons.mp h with h | h
        · exact Or.inr ⟨n % base, Nat.mod_lt _ hb, h⟩
        · exact Or.inl h
      · exact Or.inr h

/-- On a string of decimal digits the import parser reads all of it in base 10. -/
theorem paste_decimal (s : List Char) (hs : ∀ c ∈ s, ∃ d, d < 10 ∧ c = digitChar d) :
    paste s = (if parseDigits 10 s 0 ≥ ULL then ULL - 1 else parseDigits 10 s 0) := by
  have hbase : detectBase s = 10 := by
    match s, hs with
    | [], _ => rfl
    | [_], _ => simp [detectBase]
    | c0 :: c1 :: t, hs =>
      obtain ⟨d, hd, rfl⟩ := hs c1 (by simp)
      have := digitChar_decimal d hd
      unfold detectBase
      split
      · rename_i heq; simp only [List.cons.injEq] at heq; exact absurd heq.2.1 this.2.2.2.1
      · rename_i heq; simp only [List.cons.injEq] at heq; exact absurd heq.2.1 this.2.2.2.2
      · rfl
  match s, hs with
  | [], _ => simp [paste, strtoull, detectBase, parseDigits, ULL]
  | c0 :: t, hs =>
    obtain ⟨d, hd, rfl⟩ := hs c0 (by simp)
    obtain ⟨h0, h1, h2, -, -⟩ := digitChar_decimal d hd
    simp [paste, hbase, strtoull, List.dropWhile, h0, h1, h2]

/-- The import parser reads `0b..` in base 2 from its first character, and
stops at the `b`. -/
theorem paste_binary_prefix (t : List Char) : paste ('0' :: 'b' :: t) = 0 := by
  have hs : isSpace '0' = false := by decide
  have h1 : (some '0' : Option Char) ≠ some '-' := by decide
  have h2 : (some '0' : Option Char) ≠ some '+' := by decide
  have d0 : digitVal '0' = some 0 := by decide
  have db : digitVal 'b' = some 11 := by decide
  simp [paste, detectBase, strtoull, List.dropWhile, hs, h1, h2, parseDigits, d0, db, ULL]

theorem length_fmt016llx (bits : Nat) (h : bits < 2 ^ 64) : (fmt016llx bits).length = 16 := by
  have hlen := length_digitsLoop_le 16 (by decide) 64 bits [] 16 (by decide) (by simpa using h)
  simp only [List.length_nil, Nat.add_zero] at hlen
  simp only [fmt016llx, List.length_append, List.length_replicate]
  omega

theorem parseDigits_fmt016llx (bits : Nat) (h : bits < 2 ^ 64) :
    parseDigits 16 (fmt016llx bits) 0 = bits := by
  have hlt : bits < 16 ^ 64 := lt_trans h (by decide)
  simp only [fmt016llx]
  rw [parseDigits_replicate_zero 16 (by decide),
    parseDigits_digitsLoop 16 (by decide) (by decide) 64 bits [] (by decide) hlt]
  rfl

/-- The decimal export below `10 ^ 19` fits the 19 characters `snprintf` keeps
and is read back unchanged. -/
theorem decimal_round_trip_below (state bits : Nat) (h2 : state &&& 2 = 0)
    (h4 : state &&& 4 ≠ 0) (h : bits < 10 ^ 19) :
    (mainYankText state bits).map paste = some bits := by
  have hlen := length_digitsLoop_le 10 (by decide) 64 bits [] 19 (by decide) h
  simp only [List.length_nil, Nat.add_zero] at hlen
  have htake : snprintf 20 (fmtLlu bits) = fmtLlu bits := by
    simp only [snprintf, fmtLlu]
    exact List.take_of_length_le (by omega)
  have hmem : ∀ c ∈ fmtLlu bits, ∃ d, d < 10 ∧ c = digitChar d := by
    intro c hc
    rcases mem_digitsLoop 10 (by decide) 64 bits [] c hc with h | h
    · simp at h
    · exact h
  have hval : parseDigits 10 (fmtLlu bits) 0 = bits := by
    have hlt : bits < 10 ^ 64 := lt_trans h (by decide)
    simp only [fmtLlu]
    rw [parseDigits_digitsLoop 10 (by decide) (by decide) 64 bits [] (by decide) hlt]
    rfl
  have hull : ¬ bits ≥ ULL := by
    have : (10 : Nat) ^ 19 < ULL := by decide
    omega
  simp [mainYankText, h2, h4, htake, paste_decimal _ hmem, hval, hull]

/-! ## The text formats: claims C7 to C10 -/

/-- C7: hex round trip. For every 64-bit value `bits` and every state word
selecting hexadecimal output, the import parser `paste` applied to the text
the export command produces yields exactly `bits`. -/
theorem hex_round_trip (state bits : Nat) (h2 : state &&& 2 = 0) (h4 : state &&& 4 = 0)
    (h : bits < 2 ^ 64) : (mainYankText state bits).map paste = some bits := by
  have hlen := length_fmt016llx bits h
  have htake : snprintf 19 ('0' :: 'x' :: fmt016llx bits) = '0' :: 'x' :: fmt016llx bits := by
    simp only [snprintf]
    exact List.take_of_length_le (by simp [hlen])
  have hull : ¬ bits ≥ ULL := by
    have : ULL = 2 ^ 64 := rfl
    omega
  simp [mainYankText, h2, h4, htake, paste_hex, parseDigits_fmt016llx bits h, hull]

theorem hex_round_trip_witness :
    (mainYankText 0 0xfedcba9876543210).map paste = some 0xfedcba9876543210 :=
  hex_round_trip 0 0xfedcba9876543210 (by decide) (by decide) (by decide)

/-- C8 (fails on the code): under decimal output the export keeps only 19
characters of the 20 decimal digits of `0xFFFFFFFFFFFFFFFF`, and the import
parser reads the truncated text back as a different value. -/
theorem decimal_export_truncated :
    mainYankText 4 0xFFFFFFFFFFFFFFFF = some "1844674407370955161".toList ∧
    fmtLlu 0xFFFFFFFFFFFFFFFF = "18446744073709551615".toList ∧
    (mainYankText 4 0xFFFFFFFFFFFFFFFF).map paste = some 1844674407370955161 ∧
    (1844674407370955161 : Nat) ≠ 0xFFFFFFFFFFFFFFFF := by
  decide

/-- C9 (fails on the code): under binary output the export text is `0b`
followed by the output of `ulltostr`, and the import parser, which reads the
text in base 2 from its first character, yields 0 for every `bits`; for
`bits = 1` the round trip gives 0, not 1. -/
theorem binary_export_pastes_as_zero :
    (∀ bits, (mainYankText 2 bits).map paste = some 0) ∧
    mainYankText 2 1 = some ('0' :: 'b' :: (List.replicate 63 '0' ++ ['1'])) ∧
    (mainYankText 2 1).map paste ≠ some 1 := by
  refine ⟨fun bits => ?_, by decide, by decide⟩
  obtain ⟨out, hout⟩ := Option.isSome_iff_exists.mp (ulltostr_isSome bits)
  simp [mainYankText, hout, paste_binary_prefix]

/-- C10 (as stated, fails on the code): a text beginning `0X` is not read as
hexadecimal and a text beginning `0B` is not read as binary. `0X10` yields 0
where base 16 gives 16, and `0B11` yields 0 where the binary digits give 3, in
both import parsers. -/
theorem uppercase_prefix_not_detected :
    paste "0X10".toList = 0 ∧ mainInput "0X10".toList = 0 ∧
    strtoull "0X10".toList 16 = 16 ∧
    paste "0B11".toList = 0 ∧ mainInput "0B11".toList = 0 ∧
    strtoull "11".toList 2 = 3 := by
  decide

/-- C10 (amended): for every input text, the import parsers detect the base
from a lowercase prefix. A text beginning `0x` is read in base 16 by both
parsers; a text beginning `0b` is read by the text entry in base 2 from the
character after the prefix; every other text, also one beginning `0X`, `0B` or
`0`, is read in base 10 by both parsers. The text entry reads the first 19
characters typed. So `010` yields 10, `0x10` yields 16, the text entry turns
`0b11` into 3, and `0X10` and `0B11` yield 0. -/
theorem import_base_detection (text : List Char) :
    (['0', 'x'] <+: text →
      paste text = strtoull text 16 ∧ mainInput text = strtoull (text.take 19) 16) ∧
    (['0', 'b'] <+: text → mainInput text = strtoull ((text.take 19).drop 2) 2) ∧
    (¬ ['0', 'x'] <+: text → ¬ ['0', 'b'] <+: text →
      paste text = strtoull text 10 ∧ mainInput text = strtoull (text.take 19) 10) ∧
    (paste "010".toList = 10 ∧ mainInput "010".toList = 10 ∧
      paste "0x10".toList = 16 ∧ mainInput "0x10".toList = 16 ∧
      mainInput "0b11".toList = 3 ∧
      paste "0X10".toList = 0 ∧ mainInput "0X10".toList = 0 ∧
      paste "0B11".toList = 0 ∧ mainInput "0B11".toList = 0) := by
  refine ⟨?_, ?_, ?_, by decide⟩
  · rintro ⟨t, rfl⟩
    simp [paste, mainInput, getnstr, detectBase]
  · rintro ⟨t, rfl⟩
    simp [mainInput, getnstr, detectBase]
  · intro hx hb
    have hbase : detectBase text = 10 := by
      unfold detectBase
      split
      · exact absurd ⟨_, rfl⟩ hx
      · exact absurd ⟨_, rfl⟩ hb
      · rfl
    have hbase19 : detectBase (text.take 19) = 10 := by
      have hpre : text.take 19 <+: text := List.take_prefix 19 text
      unfold detectBase
      split
      · rename_i tail heq
        rw [heq] at hpre
        exact absurd (List.IsPrefix.trans ⟨tail, rfl⟩ hpre) hx
      · rename_i tail heq
        rw [heq] at hpre
        exact absurd (List.IsPrefix.trans ⟨tail, rfl⟩ hpre) hb
      · rfl
    simp [paste, mainInput, getnstr, hbase, hbase19]

theorem import_base_detection_witness :
    paste "0x1F".toList = strtoull "0x1F".toList 16 ∧
      mainInput "0x1F".toList = strtoull ("0x1F".toList.take 19) 16 :=
  (import_base_detection "0x1F".toList).1 (by decide)

/-! ## Lemmas on `ulltostr` and on digit strings -/

theorem and_two_pow_ne_zero (num j : Nat) : (num &&& 2 ^ j ≠ 0) ↔ num.testBit j = true := by
  rw [Nat.and_two_pow]
  cases num.testBit j <;> simp

/-- From `i = 2 ^ j` the loop of `ulltostr` writes the bits `j, j-1, .., 0` of
`num`. -/
theorem ulltostrLoop_two_pow (num : Nat) : ∀ j fuel, j + 2 ≤ fuel →
    ulltostrLoop fuel (2 ^ j) num =
      some ((List.range (j + 1)).map fun k => if num.testBit (j - k) then '1' else '0') := by
  intro j
  induction j with
  | zero =>
    intro fuel hf
    obtain ⟨f, rfl⟩ : ∃ f, fuel = f + 2 := ⟨fuel - 2, by omega⟩
    have h := and_two_pow_ne_zero num 0
    simp only [pow_zero] at h
    by_cases hb : num.testBit 0 = true
    · have h1 : num &&& 1 ≠ 0 := h.mpr hb
      have h2 : num % 2 = 1 := by simpa [Nat.testBit_zero] using hb
      simp [ulltostrLoop, h1, h2]
    · have h1 : ¬ (num &&& 1 ≠ 0) := fun hc => hb (h.mp hc)
      have h2 : num % 2 = 0 := by
        have : ¬ num % 2 = 1 := by simpa [Nat.testBit_zero] using hb
        omega
      simp [ulltostrLoop, h1, h2]
  | succ j ih =>
    intro fuel hf
    obtain ⟨f, rfl⟩ : ∃ f, fuel = f + 1 := ⟨fuel - 1, by omega⟩
    have hshift : (2 ^ (j + 1)) >>> 1 = 2 ^ j := by
      rw [Nat.shiftRight_eq_div_pow, pow_succ]; simp
    have hpos : 2 ^ (j + 1) > 0 := Nat.two_pow_pos (j + 1)
    rw [ulltostrLoop, if_pos hpos, hshift, ih f (by omega)]
    rw [List.range_succ_eq_map (j + 1)]
    have h := and_two_pow_ne_zero num (j + 1)
    by_cases hb : num.testBit (j + 1) = true
    · have h1 : num &&& 2 ^ (j + 1) ≠ 0 := h.mpr hb
      simp [h1, hb, List.map_map, Function.comp_def]
    · have h1 : ¬ (num &&& 2 ^ (j + 1) ≠ 0) := fun hc => hb (h.mp hc)
      simp [h1, hb, List.map_map, Function.comp_def]

/-- The string `ulltostr` leaves: 64 characters, the bits of `num` from bit 63
down to bit 0. -/
theorem ulltostr_eq (num : Nat) : ulltostr num =
    some ((List.range 64).map fun k => if num.testBit (63 - k) then '1' else '0') :=
  ulltostrLoop_two_pow num 63 65 (by decide)

/-- The import reads the longest run of digits of the base: `parseDigits` is
the digit value of that run. -/
theorem parseDigits_eq_foldl (base : Nat) : ∀ (s : List Char) (acc : Nat),
    parseDigits base s acc =
      (s.takeWhile (validDigit base)).foldl (fun a c => a * base + (digitVal c).getD 0) acc := by
  intro s
  induction s with
  | nil => intro acc; rfl
  | cons c cs ih =>
    intro acc
    cases hd : digitVal c with
    | none => simp [parseDigits, validDigit, hd, List.takeWhile]
    | some d =>
      by_cases hlt : d < base
      · simp [parseDigits, validDigit, hd, hlt, List.takeWhile, ih]
      · simp [parseDigits, validDigit, hd, hlt, List.takeWhile]

theorem parseDigits_eq_digitsValue (base : Nat) (s : List Char) :
    parseDigits base s 0 = digitsValue base (s.takeWhile (validDigit base)) :=
  parseDigits_eq_foldl base s 0

theorem parseDigits_of_all_valid (base : Nat) (s : List Char)
    (h : ∀ c ∈ s, validDigit base c = true) : parseDigits base s 0 = digitsValue base s := by
  rw [parseDigits_eq_digitsValue, List.takeWhile_eq_self_iff.mpr h]

theorem validDigit_digitChar : ∀ d, d < 16 →
    validDigit 16 (digitChar d) = true ∧ digitChar d ∈ "0123456789abcdef".toList := by
  decide

theorem mem_fmt016llx (bits : Nat) (c : Char) (hc : c ∈ fmt016llx bits) :
    ∃ d, d < 16 ∧ c = digitChar d := by
  simp only [fmt016llx, List.mem_append, List.mem_replicate] at hc
  rcases hc with ⟨_, rfl⟩ | hc
  · exact ⟨0, by decide, by decide⟩
  · rcases mem_digitsLoop 16 (by decide) 64 bits [] c hc with h | h
    · simp at h
    · exact h

/-! ## The export text: claim C11 -/

/-- C11: for every 64-bit value `bits`, the export text has fixed width and
encodes `bits`. Under hexadecimal output it is `0x` followed by 16 characters
(18 in all), each a lowercase hexadecimal digit, whose value in base 16 is
`bits`. Under binary output it is `0b` followed by the 64 characters of
`ulltostr` (66 in all), whose `k`-th character is `'1'` if bit `63 - k` of
`bits` is set and `'0'` otherwise. For `0xFFFFFFFFFFFFFFFF` these are 16 `f` and
64 `1`, for 0 they are 16 `0` and 64 `0`. -/
theorem export_text_fixed_width (state bits : Nat) (h : bits < 2 ^ 64) :
    (state &&& 2 = 0 → state &&& 4 = 0 →
      ∃ ds, mainYankText state bits = some ('0' :: 'x' :: ds) ∧
        ('0' :: 'x' :: ds).length = 18 ∧ ds.length = 16 ∧
        (∀ c ∈ ds, c ∈ "0123456789abcdef".toList) ∧ digitsValue 16 ds = bits) ∧
    (state &&& 2 ≠ 0 →
      ∃ out, ulltostr bits = some out ∧ mainYankText state bits = some ('0' :: 'b' :: out) ∧
        ('0' :: 'b' :: out).length = 66 ∧ out.length = 64 ∧
        ∀ k, k < 64 → out.get? k = some (if bits.testBit (63 - k) then '1' else '0')) ∧
    mainYankText 0 0xFFFFFFFFFFFFFFFF = some ('0' :: 'x' :: List.replicate 16 'f') ∧
    mainYankText 0 0 = some ('0' :: 'x' :: List.replicate 16 '0') ∧
    mainYankText 2 0xFFFFFFFFFFFFFFFF = some ('0' :: 'b' :: List.replicate 64 '1') ∧
    mainYankText 2 0 = some ('0' :: 'b' :: List.replicate 64 '0') := by
  refine ⟨fun h2 h4 => ?_, fun h2 => ?_, by decide, by decide, by decide, by decide⟩
  · have hlen := length_fmt016llx bits h
    have htake : snprintf 19 ('0' :: 'x' :: fmt016llx bits) = '0' :: 'x' :: fmt016llx bits := by
      simp only [snprintf]
      exact List.take_of_length_le (by simp [hlen])
    have hvalid : ∀ c ∈ fmt016llx bits, validDigit 16 c = true := by
      intro c hc
      obtain ⟨d, hd, rfl⟩ := mem_fmt016llx bits c hc
      exact (validDigit_digitChar d hd).1
    refine ⟨fmt016llx bits, by simp [mainYankText, h2, h4, htake], by simp [hlen], hlen, ?_, ?_⟩
    · intro c hc
      obtain ⟨d, hd, rfl⟩ := mem_fmt016llx bits c hc
      exact (validDigit_digitChar d hd).2
    · rw [← parseDigits_of_all_valid 16 _ hvalid]
      exact parseDigits_fmt016llx bits h
  · refine ⟨_, ulltostr_eq bits, by simp [mainYankText, h2, ulltostr_eq], by simp, by simp, ?_⟩
    intro k hk
    simp [List.get?_eq_getElem?, List.getElem?_map, List.getElem?_range hk]

theorem export_text_fixed_width_witness :
    ∃ ds, mainYankText 0 0x123456789abcdef0 = some ('0' :: 'x' :: ds) ∧
      ('0' :: 'x' :: ds).length = 18 ∧ ds.length = 16 ∧
      (∀ c ∈ ds, c ∈ "0123456789abcdef".toList) ∧ digitsValue 16 ds = 0x123456789abcdef0 :=
  (export_text_fixed_width 0 0x123456789abcdef0 (by decide)).1 (by decide) (by decide)

/-! ## Lemmas: the transforms are defined and keep 64 bits -/

theorem maskOk_diagonalRising : maskOk (fun pos => diagonalRising pos 0) onRising = true := by
  decide

theorem maskOk_diagonalFalling : maskOk (fun pos => diagonalFalling pos 0) onFalling = true := by
  decide

theorem maskOk_double : maskOk (fun pos => diagonal 'd' pos 0) onOneDiagonal = true := by
  decide

/-- A transform that passes `maskOk` is defined at every `pos < 64` on every
board and keeps a 64-bit board within 64 bits. -/
theorem total_of_maskOk (f : Nat → Nat → Option Nat) (P : Nat → Nat → Prop)
    [∀ a b, Decidable (P a b)] (hlin : ∀ pos, XorLinear (fun b => f b pos))
    (hok : maskOk (f 0) P = true) (bits pos : Nat) (hb : bits < 2 ^ 64) (hpos : pos < 64) :
    ∃ r, f bits pos = some r ∧ r < 2 ^ 64 := by
  have h := (List.all_eq_true.mp hok) pos (List.mem_range.mpr hpos)
  cases h0 : f 0 pos with
  | none => simp [h0] at h
  | some m =>
    simp only [h0, Bool.and_eq_true, decide_eq_true_eq] at h
    refine ⟨bits ^^^ m, ?_, Nat.xor_lt_two_pow hb h.1⟩
    have := hlin pos bits
    simpa [h0] using this

theorem mainToggleBit_total (bits pos : Nat) (hb : bits < 2 ^ 64) (hpos : pos < 64) :
    ∃ r, mainToggleBit bits pos = some r ∧ r < 2 ^ 64 := by
  refine ⟨bits ^^^ (1 <<< pos), by simp [mainToggleBit, flip, hpos], Nat.xor_lt_two_pow hb ?_⟩
  rw [Nat.one_shiftLeft]
  exact Nat.pow_lt_pow_right (by decide) hpos

theorem mainFlipAll_total (bits : Nat) (hb : bits < 2 ^ 64) :
    ∃ r, mainFlipAll bits = some r ∧ r < 2 ^ 64 := by
  refine ⟨bits ^^^ (2 ^ 64 - 1), ?_, Nat.xor_lt_two_pow hb (by decide)⟩
  have := xorLinear_mainFlipAll bits
  simpa [mainFlipAll_zero] using this

theorem mainRank_total (bits pos : Nat) (hb : bits < 2 ^ 64) (hpos : pos < 64) :
    ∃ r, mainRank bits pos = some r ∧ r < 2 ^ 64 :=
  total_of_maskOk _ _ xorLinear_mainRank maskOk_mainRank bits pos hb hpos

theorem mainFile_total (bits pos : Nat) (hb : bits < 2 ^ 64) (hpos : pos < 64) :
    ∃ r, mainFile bits pos = some r ∧ r < 2 ^ 64 :=
  total_of_maskOk _ _ xorLinear_mainFile maskOk_mainFile bits pos hb hpos

theorem mainKnight_total (bits pos : Nat) (hb : bits < 2 ^ 64) (hpos : pos < 64) :
    ∃ r, mainKnight bits pos = some r ∧ r < 2 ^ 64 :=
  total_of_maskOk _ _ xorLinear_mainKnight maskOk_mainKnight bits pos hb hpos

theorem diagonalRising_total (bits pos : Nat) (hb : bits < 2 ^ 64) (hpos : pos < 64) :
    ∃ r, diagonalRising pos bits = some r ∧ r < 2 ^ 64 :=
  total_of_maskOk (fun b p => diagonalRising p b) _ xorLinear_diagonalRising
    maskOk_diagonalRising bits pos hb hpos

theorem diagonalFalling_total (bits pos : Nat) (hb : bits < 2 ^ 64) (hpos : pos < 64) :
    ∃ r, diagonalFalling pos bits = some r ∧ r < 2 ^ 64 :=
  total_of_maskOk (fun b p => diagonalFalling p b) _ xorLinear_diagonalFalling
    maskOk_diagonalFalling bits pos hb hpos

/-- The function `diagonal` is defined for every input character. -/
theorem diagonal_total (inp : Char) (bits pos : Nat) (hb : bits < 2 ^ 64) (hpos : pos < 64) :
    ∃ r, diagonal inp pos bits = some r ∧ r < 2 ^ 64 := by
  unfold diagonal
  by_cases hr : inp = 'r' ∨ inp = 'd'
  · obtain ⟨r1, h1, hlt1⟩ := diagonalRising_total bits pos hb hpos
    by_cases hf : inp = 'f' ∨ inp = 'd'
    · obtain ⟨r2, h2, hlt2⟩ := diagonalFalling_total r1 pos hlt1 hpos
      exact ⟨r2, by simp [hr, hf, h1, h2], hlt2⟩
    · exact ⟨r1, by simp [hr, hf, h1], hlt1⟩
  · by_cases hf : inp = 'f' ∨ inp = 'd'
    · obtain ⟨r2, h2, hlt2⟩ := diagonalFalling_total bits pos hb hpos
      exact ⟨r2, by simp [hr, hf, h2], hlt2⟩
    · exact ⟨bits, by simp [hr, hf], hb⟩

theorem knight_subtractions : ∀ pos, pos < 64 →
    (0 < pos / 8 ∧ 1 < pos % 8 → usub pos 10 + 10 = pos) ∧
    (0 < pos / 8 ∧ pos % 8 < 6 → usub pos 6 + 6 = pos) ∧
    (1 < pos / 8 ∧ 0 < pos % 8 → usub pos 17 + 17 = pos) ∧
    (1 < pos / 8 ∧ pos % 8 < 7 → usub pos 15 + 15 = pos) := by
  decide

theorem diagonals_meet_at_pos : ∀ pos, pos < 64 → ∀ q, q < 64 →
    (onRising pos q ∧ onFalling pos q ↔ q = pos) := by
  decide

/-! ## Totality and the double diagonal: claims C18 and C20 -/

/-- C18: for every 64-bit board `bits` and every cursor in `[0,63]`, the
toggle-bit, invert-all, rank, file, knight and diagonal (`'r'`, `'f'`, `'d'`)
commands are defined and return a 64-bit board: every shift `1ull << p` they
perform has `p < 64` and both loops of `diagonal` leave within 65 turns
(`flip` and the loops return `none` otherwise). The four subtractions of the
knight command, where their guards hold, do not wrap. -/
theorem transforms_total (bits cursor : Nat) (hb : bits < 2 ^ 64) (hc : cursor < 64) :
    (∃ r, mainToggleBit bits cursor = some r ∧ r < 2 ^ 64) ∧
    (∃ r, mainFlipAll bits = some r ∧ r < 2 ^ 64) ∧
    (∃ r, mainRank bits cursor = some r ∧ r < 2 ^ 64) ∧
    (∃ r, mainFile bits cursor = some r ∧ r < 2 ^ 64) ∧
    (∃ r, mainKnight bits cursor = some r ∧ r < 2 ^ 64) ∧
    (∃ r, diagonal 'r' cursor bits = some r ∧ r < 2 ^ 64) ∧
    (∃ r, diagonal 'f' cursor bits = some r ∧ r < 2 ^ 64) ∧
    (∃ r, diagonal 'd' cursor bits = some r ∧ r < 2 ^ 64) ∧
    (0 < cursor / 8 ∧ 1 < cursor % 8 → usub cursor 10 + 10 = cursor) ∧
    (0 < cursor / 8 ∧ cursor % 8 < 6 → usub cursor 6 + 6 = cursor) ∧
    (1 < cursor / 8 ∧ 0 < cursor % 8 → usub cursor 17 + 17 = cursor) ∧
    (1 < cursor / 8 ∧ cursor % 8 < 7 → usub cursor 15 + 15 = cursor) :=
  ⟨mainToggleBit_total bits cursor hb hc, mainFlipAll_total bits hb,
    mainRank_total bits cursor hb hc, mainFile_total bits cursor hb hc,
    mainKnight_total bits cursor hb hc, diagonal_total 'r' bits cursor hb hc,
    diagonal_total 'f' bits cursor hb hc, diagonal_total 'd' bits cursor hb hc,
    knight_subtractions cursor hc⟩

theorem transforms_total_witness :
    (∃ r, mainToggleBit 0xFFFFFFFFFFFFFFFF 63 = some r ∧ r < 2 ^ 64) ∧
    (∃ r, mainFlipAll 0xFFFFFFFFFFFFFFFF = some r ∧ r < 2 ^ 64) ∧
    (∃ r, mainRank 0xFFFFFFFFFFFFFFFF 63 = some r ∧ r < 2 ^ 64) ∧
    (∃ r, mainFile 0xFFFFFFFFFFFFFFFF 63 = some r ∧ r < 2 ^ 64) ∧
    (∃ r, mainKnight 0xFFFFFFFFFFFFFFFF 63 = some r ∧ r < 2 ^ 64) ∧
    (∃ r, diagonal 'r' 63 0xFFFFFFFFFFFFFFFF = some r ∧ r < 2 ^ 64) ∧
    (∃ r, diagonal 'f' 63 0xFFFFFFFFFFFFFFFF = some r ∧ r < 2 ^ 64) ∧
    (∃ r, diagonal 'd' 63 0xFFFFFFFFFFFFFFFF = some r ∧ r < 2 ^ 64) ∧
    (0 < 63 / 8 ∧ 1 < 63 % 8 → usub 63 10 + 10 = 63) ∧
    (0 < 63 / 8 ∧ 63 % 8 < 6 → usub 63 6 + 6 = 63) ∧
    (1 < 63 / 8 ∧ 0 < 63 % 8 → usub 63 17 + 17 = 63) ∧
    (1 < 63 / 8 ∧ 63 % 8 < 7 → usub 63 15 + 15 = 63) :=
  transforms_total 0xFFFFFFFFFFFFFFFF 63 (by decide) (by decide)

/-- C20: for every board `bits` and every `pos` in `[0,63]`, `diagonal` with
input `'d'` is defined and changes bit `q` if and only if `q` is a square of
the board on exactly one of the two diagonals through `pos`; the bit at `pos`
is left unchanged, and every other square of either diagonal is changed. -/
theorem double_diagonal_changes_exactly_one (bits pos q : Nat) (hpos : pos < 64) :
    ∃ r, diagonal 'd' pos bits = some r ∧
      (r.testBit q ≠ bits.testBit q ↔
        q < 64 ∧ ((onRising pos q ∧ ¬ onFalling pos q) ∨ (¬ onRising pos q ∧ onFalling pos q))) ∧
      r.testBit pos = bits.testBit pos ∧
      (q < 64 → q ≠ pos → onRising pos q ∨ onFalling pos q → r.testBit q ≠ bits.testBit q) := by
  have key := changed_iff_of_maskOk (fun b p => diagonal 'd' p b) onOneDiagonal
    (fun p => xorLinear_diagonal 'd' p) maskOk_double bits pos
  obtain ⟨r, hr, hq⟩ := key q hpos
  obtain ⟨r1, hr1, hp⟩ := key pos hpos
  have hrr : r1 = r := by
    have hh : some r1 = some r := hr1.symm.trans hr
    exact Option.some.inj hh
  subst hrr
  refine ⟨r1, hr, hq, ?_, ?_⟩
  · by_contra hne
    have h := (hp.mp hne).2
    have hR : onRising pos pos := rfl
    have hF : onFalling pos pos := rfl
    rcases h with h | h
    · exact h.2 hF
    · exact h.1 hR
  · intro hq64 hne hon
    refine hq.mpr ⟨hq64, ?_⟩
    have hmeet := diagonals_meet_at_pos pos hpos q hq64
    by_cases hR : onRising pos q
    · exact Or.inl ⟨hR, fun hF => hne (hmeet.mp ⟨hR, hF⟩)⟩
    · rcases hon with h | h
      · exact absurd h hR
      · exact Or.inr ⟨hR, h⟩

theorem double_diagonal_changes_exactly_one_witness :
    ∃ r, diagonal 'd' 27 5 = some r ∧
      (r.testBit 20 ≠ Nat.testBit 5 20 ↔
        20 < 64 ∧ ((onRising 27 20 ∧ ¬ onFalling 27 20) ∨ (¬ onRising 27 20 ∧ onFalling 27 20))) ∧
      r.testBit 27 = Nat.testBit 5 27 ∧
      (20 < 64 → 20 ≠ 27 → onRising 27 20 ∨ onFalling 27 20 → r.testBit 20 ≠ Nat.testBit 5 20) :=
  double_diagonal_changes_exactly_one 5 27 20 (by decide)

/-! ## Lemmas on the loop of `main` -/

theorem clamp_lt (v : Nat) (neg : Prop) [Decidable neg] :
    (if v ≥ ULL then ULL - 1 else if neg then (ULL - v) % ULL else v) < 2 ^ 64 := by
  have hU : ULL = 2 ^ 64 := rfl
  split_ifs
  · omega
  · rw [← hU]; exact Nat.mod_lt _ (by rw [hU]; decide)
  · omega

theorem strtoull_lt (s : List Char) (base : Nat) : strtoull s base < 2 ^ 64 := by
  unfold strtoull
  exact clamp_lt _ _

theorem mainYankText_isSome (state bits : Nat) : (mainYankText state bits).isSome = true := by
  unfold mainYankText
  split_ifs
  · obtain ⟨out, hout⟩ := Option.isSome_iff_exists.mp (ulltostr_isSome bits)
    simp [hout]
  · rfl
  · rfl

theorem cycleState_values :
    cycleState 0 = 2 ∧ cycleState 2 = 4 ∧ cycleState 4 = 0 := by decide

theorem exists_ite {α : Type} (c : Prop) [Decidable c] (a b : Option α) (P : α → Prop)
    (ha : c → ∃ o, a = some o ∧ P o) (hb : ¬ c → ∃ o, b = some o ∧ P o) :
    ∃ o, (if c then a else b) = some o ∧ P o := by
  by_cases h : c
  · rw [if_pos h]; exact ha h
  · rw [if_neg h]; exact hb h

theorem inv_bitboard (m : Machine) (h : Inv m) (b : Nat) (hb : b < 2 ^ 64) :
    Inv { m with bitboard := b } := ⟨hb, h.2.1, h.2.2⟩

theorem inv_cursor (m : Machine) (h : Inv m) (c : Nat) (hc : c < 64) :
    Inv { m with cursorPos := c } := ⟨h.1, hc, h.2.2⟩

theorem inv_state (m : Machine) (h : Inv m) (s : Nat)
    (hs : s = 0 ∨ s = 1 ∨ s = 2 ∨ s = 4) : Inv { m with state := s } := ⟨h.1, h.2.1, hs⟩

theorem inv_pending (m : Machine) (h : Inv m) (hp : m.state &&& 1 ≠ 0) (b : Nat)
    (hb : b < 2 ^ 64) : Inv { m with bitboard := b, state := m.state ^^^ 1 } := by
  refine ⟨hb, h.2.1, ?_⟩
  show m.state ^^^ 1 = 0 ∨ m.state ^^^ 1 = 1 ∨ m.state ^^^ 1 = 2 ∨ m.state ^^^ 1 = 4
  rcases h.2.2 with h0 | h0 | h0 | h0 <;> rw [h0] at hp ⊢
  · exact absurd rfl hp
  · exact Or.inl rfl
  · exact absurd rfl hp
  · exact absurd rfl hp

theorem inv_cycle (m : Machine) (h : Inv m) (hp : ¬ m.state &&& 1 ≠ 0) :
    Inv { m with state := cycleState m.state } := by
  refine ⟨h.1, h.2.1, ?_⟩
  show cycleState m.state = 0 ∨ cycleState m.state = 1 ∨ cycleState m.state = 2 ∨
    cycleState m.state = 4
  rcases h.2.2 with h0 | h0 | h0 | h0 <;> rw [h0] at hp ⊢
  · exact Or.inr (Or.inr (Or.inl rfl))
  · exact absurd (by decide) hp
  · exact Or.inr (Or.inr (Or.inr rfl))
  · exact Or.inl rfl

theorem inv_move (m : Machine) (h : Inv m) (c : Prop) [Decidable c] (p : Nat)
    (hp : c → p < 64) : Inv (if c then { m with cursorPos := p } else m) := by
  by_cases hc : c
  · rw [if_pos hc]; exact inv_cursor m h p (hp hc)
  · rw [if_neg hc]; exact h

/-- One turn of the loop is defined and keeps the invariant. -/
theorem mainStep_inv (ev : Event) (m : Machine) (h : Inv m) :
    ∃ o, mainStep ev m = some o ∧ Inv o.machine := by
  have hb := h.1
  have hc := h.2.1
  obtain ⟨r1, e1, l1⟩ := diagonal_total (toChar ev.input) m.bitboard m.cursorPos hb hc
  obtain ⟨r2, e2, l2⟩ := mainToggleBit_total m.bitboard m.cursorPos hb hc
  obtain ⟨r3, e3, l3⟩ := mainFlipAll_total m.bitboard hb
  obtain ⟨r4, e4, l4⟩ := mainRank_total m.bitboard m.cursorPos hb hc
  obtain ⟨r5, e5, l5⟩ := mainFile_total m.bitboard m.cursorPos hb hc
  obtain ⟨r6, e6, l6⟩ := mainKnight_total m.bitboard m.cursorPos hb hc
  obtain ⟨t, et⟩ := Option.isSome_iff_exists.mp (mainYankText_isSome m.state m.bitboard)
  have hU : UINT = 2 ^ 32 := rfl
  unfold mainStep
  rw [e1, e2, e3, e4, e5, e6, et]
  simp only [Option.map_some']
  refine exists_ite _ _ _ _ (fun c0 => ⟨_, rfl, inv_pending m h c0 r1 l1⟩) (fun c0 => ?_)
  refine exists_ite _ _ _ _ (fun _ => ⟨_, rfl, h⟩) (fun _ => ?_)
  refine exists_ite _ _ _ _ (fun _ => ⟨_, rfl, inv_move m h _ _ ?_⟩) (fun _ => ?_)
  · intro hk; unfold usub; rw [hU]; omega
  refine exists_ite _ _ _ _ (fun _ => ⟨_, rfl, inv_move m h _ _ ?_⟩) (fun _ => ?_)
  · intro hk; unfold uadd; rw [hU]; omega
  refine exists_ite _ _ _ _ (fun _ => ⟨_, rfl, inv_move m h _ _ ?_⟩) (fun _ => ?_)
  · intro hk; unfold usub; rw [hU]; omega
  refine exists_ite _ _ _ _ (fun _ => ⟨_, rfl, inv_move m h _ _ ?_⟩) (fun _ => ?_)
  · intro hk; unfold uadd; rw [hU]; omega
  refine exists_ite _ _ _ _ (fun _ => ⟨_, rfl, inv_bitboard m h r2 l2⟩) (fun _ => ?_)
  refine exists_ite _ _ _ _ (fun _ => ⟨_, rfl, inv_bitboard m h 0 (by decide)⟩) (fun _ => ?_)
  refine exists_ite _ _ _ _ (fun _ => ⟨_, rfl, inv_bitboard m h r3 l3⟩) (fun _ => ?_)
  refine exists_ite _ _ _ _ (fun _ => ⟨_, rfl, inv_bitboard m h r4 l4⟩) (fun _ => ?_)
  refine exists_ite _ _ _ _ (fun _ => ⟨_, rfl, inv_bitboard m h r5 l5⟩) (fun _ => ?_)
  refine exists_ite _ _ _ _ (fun _ => ⟨_, rfl, inv_state m h 1 (Or.inr (Or.inl rfl))⟩)
    (fun _ => ?_)
  refine exists_ite _ _ _ _ (fun _ => ⟨_, rfl, inv_bitboard m h r6 l6⟩) (fun _ => ?_)
  refine exists_ite _ _ _ _ (fun _ => ?_) (fun _ => ?_)
  · refine exists_ite _ _ _ _ (fun _ => ?_) (fun _ => ⟨_, rfl, h⟩)
    cases ev.selection with
    | none => exact ⟨_, rfl, h⟩
    | some propRet => exact ⟨_, rfl, inv_bitboard m h _ (strtoull_lt _ _)⟩
  refine exists_ite _ _ _ _ (fun _ => ?_) (fun _ => ?_)
  · exact exists_ite _ _ _ _ (fun _ => ⟨_, rfl, h⟩) (fun _ => ⟨_, rfl, h⟩)
  refine exists_ite _ _ _ _ (fun _ => ⟨_, rfl, inv_bitboard m h _ (strtoull_lt _ _)⟩)
    (fun _ => ?_)
  refine exists_ite _ _ _ _ (fun _ => ⟨_, rfl, inv_bitboard m h _ (strtoull_lt _ _)⟩)
    (fun _ => ?_)
  exact exists_ite _ _ _ _ (fun _ => ⟨_, rfl, inv_cycle m h c0⟩) (fun _ => ⟨_, rfl, h⟩)

/-- The loop is defined on every run from a state with the invariant, and ends
in a state with the invariant. -/
theorem mainLoop_inv (evs : List Event) : ∀ m, Inv m →
    ∃ o, mainLoop m evs = some o ∧ Inv o.machine := by
  induction evs with
  | nil => intro m h; exact ⟨_, rfl, h⟩
  | cons ev evs ih =>
    intro m h
    obtain ⟨o, ho, hinv⟩ := mainStep_inv ev m h
    cases o with
    | next m1 =>
      obtain ⟨o2, ho2, hinv2⟩ := ih m1 hinv
      exact ⟨o2, by simp [mainLoop, ho, ho2], hinv2⟩
    | quit m1 => exact ⟨_, by simp [mainLoop, ho], hinv⟩

theorem inv_initial : Inv initial := by
  refine ⟨?_, ?_, Or.inl rfl⟩ <;> decide

theorem mainStep_cycle (ev : Event) (m : Machine) (hn : m.state &&& 1 = 0)
    (hkey : ev.input = key 'o') :
    mainStep ev m = some (Outcome.next { m with state := cycleState m.state }) := by
  unfold mainStep
  rw [hkey]
  simp +decide only [hn, ne_eq, not_true_eq_false, ite_false, ite_true, if_false, if_true,
    or_self, not_false_eq_true]

theorem mainStep_left (ev : Event) (m : Machine) (hn : m.state &&& 1 = 0)
    (hkey : ev.input = KEY_LEFT ∨ ev.input = key 'h') :
    mainStep ev m = some (Outcome.next
      (if m.cursorPos % 8 > 0 then { m with cursorPos := usub m.cursorPos 1 } else m)) := by
  unfold mainStep
  rcases hkey with hkey | hkey <;> rw [hkey] <;>
  simp +decide only [hn, ne_eq, not_true_eq_false, ite_false, ite_true, if_false, if_true,
    or_self, or_true, true_or, or_false, false_or, not_false_eq_true]

theorem mainStep_down (ev : Event) (m : Machine) (hn : m.state &&& 1 = 0)
    (hkey : ev.input = KEY_DOWN ∨ ev.input = key 'j') :
    mainStep ev m = some (Outcome.next
      (if m.cursorPos < 56 then { m with cursorPos := uadd m.cursorPos 8 } else m)) := by
  unfold mainStep
  rcases hkey with hkey | hkey <;> rw [hkey] <;>
  simp +decide only [hn, ne_eq, not_true_eq_false, ite_false, ite_true, if_false, if_true,
    or_self, or_true, true_or, or_false, false_or, not_false_eq_true]

theorem mainStep_up (ev : Event) (m : Machine) (hn : m.state &&& 1 = 0)
    (hkey : ev.input = KEY_UP ∨ ev.input = key 'k') :
    mainStep ev m = some (Outcome.next
      (if m.cursorPos > 7 then { m with cursorPos := usub m.cursorPos 8 } else m)) := by
  unfold mainStep
  rcases hkey with hkey | hkey <;> rw [hkey] <;>
  simp +decide only [hn, ne_eq, not_true_eq_false, ite_false, ite_true, if_false, if_true,
    or_self, or_true, true_or, or_false, false_or, not_false_eq_true]

theorem mainStep_right (ev : Event) (m : Machine) (hn : m.state &&& 1 = 0)
    (hkey : ev.input = KEY_RIGHT ∨ ev.input = key 'l') :
    mainStep ev m = some (Outcome.next
      (if m.cursorPos % 8 < 7 then { m with cursorPos := uadd m.cursorPos 1 } else m)) := by
  unfold mainStep
  rcases hkey with hkey | hkey <;> rw [hkey] <;>
  simp +decide only [hn, ne_eq, not_true_eq_false, ite_false, ite_true, if_false, if_true,
    or_self, or_true, true_or, or_false, false_or, not_false_eq_true]

theorem mainStep_diagonalKey (ev : Event) (m : Machine) (hn : m.state &&& 1 = 0)
    (hkey : ev.input = key 'd') :
    mainStep ev m = some (Outcome.next { m with state := 1 }) := by
  unfold mainStep
  rw [hkey]
  simp +decide only [hn, ne_eq, not_true_eq_false, ite_false, ite_true, if_false, if_true,
    or_self, or_true, true_or, or_false, false_or, not_false_eq_true]

theorem mainStep_pending (ev : Event) (m : Machine) (hp : m.state &&& 1 ≠ 0) :
    mainStep ev m = (diagonal (toChar ev.input) m.cursorPos m.bitboard).map fun b =>
      Outcome.next { m with bitboard := b, state := m.state ^^^ 1 } := by
  unfold mainStep
  rw [if_pos hp]

/-- With the diagonal pending, every key ends the pending state without leaving
the loop and without moving the cursor; a key whose code modulo 256 is none of
`'r'`, `'f'`, `'d'` leaves the bitboard as it is. -/
theorem pending_step (ev : Event) (m : Machine) (h : Inv m) (hp : m.state &&& 1 ≠ 0) :
    ∃ b, diagonal (toChar ev.input) m.cursorPos m.bitboard = some b ∧
      mainStep ev m = some (Outcome.next { m with bitboard := b, state := 0 }) ∧
      (toChar ev.input ≠ 'r' → toChar ev.input ≠ 'f' → toChar ev.input ≠ 'd' →
        b = m.bitboard) := by
  obtain ⟨b, hb, -⟩ := diagonal_total (toChar ev.input) m.bitboard m.cursorPos h.1 h.2.1
  have hs : m.state ^^^ 1 = 0 := by
    rcases h.2.2 with h0 | h0 | h0 | h0 <;> rw [h0] at hp ⊢
    · exact absurd rfl hp
    · rfl
    · exact absurd rfl hp
    · exact absurd rfl hp
  refine ⟨b, hb, ?_, ?_⟩
  · rw [mainStep_pending ev m hp, hb, hs]; rfl
  · intro hr hf hd
    have : diagonal (toChar ev.input) m.cursorPos m.bitboard = some m.bitboard := by
      simp [diagonal, hr, hf, hd]
    rw [this] at hb
    exact (Option.some.inj hb).symm

theorem nav_arith : ∀ c, c < 64 →
    (c % 8 > 0 → usub c 1 = c - 1) ∧ (c % 8 < 7 → uadd c 1 = c + 1) ∧
    (c > 7 → usub c 8 = c - 8) ∧ (c < 56 → uadd c 8 = c + 8) ∧
    row (if c % 8 > 0 then c - 1 else c) = row c ∧
    row (if c % 8 < 7 then c + 1 else c) = row c ∧
    col (if c ≥ 8 then c - 8 else c) = col c ∧
    col (if c < 56 then c + 8 else c) = col c := by
  decide

theorem cycle_facts :
    (pendingDiagonal 2 = pendingDiagonal 0 ∧
      (outputBase 0 = Base.HEX → outputBase 2 = Base.BINARY) ∧
      (outputBase 0 = Base.BINARY → outputBase 2 = Base.DECIMAL) ∧
      (outputBase 0 = Base.DECIMAL → outputBase 2 = Base.HEX)) ∧
    (pendingDiagonal 4 = pendingDiagonal 2 ∧
      (outputBase 2 = Base.HEX → outputBase 4 = Base.BINARY) ∧
      (outputBase 2 = Base.BINARY → outputBase 4 = Base.DECIMAL) ∧
      (outputBase 2 = Base.DECIMAL → outputBase 4 = Base.HEX)) ∧
    (pendingDiagonal 0 = pendingDiagonal 4 ∧
      (outputBase 4 = Base.HEX → outputBase 0 = Base.BINARY) ∧
      (outputBase 4 = Base.BINARY → outputBase 0 = Base.DECIMAL) ∧
      (outputBase 4 = Base.DECIMAL → outputBase 0 = Base.HEX)) := by
  decide

/-! ## The loop of `main`: claims C12 to C16 -/

/-- C12 (fails on the code): with the diagonal pending, the key codes
`KEY_PREVIOUS`, `KEY_COPY` and `KEY_CLOSE` are not the keys `'r'`, `'f'`, `'d'`,
yet their conversion to `char` gives these characters and the bitboard is
changed: from the empty board with the cursor at 7, `KEY_PREVIOUS` flips the
rising diagonal, `KEY_COPY` the falling one and `KEY_CLOSE` both. -/
theorem pending_key_code_truncated :
    (KEY_PREVIOUS ≠ key 'r' ∧ toChar KEY_PREVIOUS = 'r') ∧
    (KEY_COPY ≠ key 'f' ∧ toChar KEY_COPY = 'f') ∧
    (KEY_CLOSE ≠ key 'd' ∧ toChar KEY_CLOSE = 'd') ∧
    mainStep (press KEY_PREVIOUS) { bitboard := 0, cursorPos := 7, state := 1 } =
      some (Outcome.next { bitboard := 0x0102040810204080, cursorPos := 7, state := 0 }) ∧
    mainStep (press KEY_COPY) { bitboard := 0, cursorPos := 7, state := 1 } =
      some (Outcome.next { bitboard := 0x80, cursorPos := 7, state := 0 }) ∧
    mainStep (press KEY_CLOSE) { bitboard := 0, cursorPos := 9, state := 1 } =
      some (Outcome.next { bitboard := 0x8040201008050005, cursorPos := 9, state := 0 }) := by
  decide

/-- C13 (fails on the code): from the state with binary output (`state = 2`) or
decimal output (`state = 4`), the key `'d'` followed by the key `'x'` leaves the
bitboard and the cursor as they were and ends with nothing pending, but the
output base is hexadecimal. -/
theorem prefix_resets_output_base :
    mainLoop { bitboard := 5, cursorPos := 9, state := 2 } [press (key 'd'), press (key 'x')] =
      some (Outcome.next { bitboard := 5, cursorPos := 9, state := 0 }) ∧
    mainLoop { bitboard := 5, cursorPos := 9, state := 4 } [press (key 'd'), press (key 'x')] =
      some (Outcome.next { bitboard := 5, cursorPos := 9, state := 0 }) ∧
    mainStep (press (key 'd')) { bitboard := 5, cursorPos := 9, state := 2 } =
      some (Outcome.next { bitboard := 5, cursorPos := 9, state := 1 }) ∧
    outputBase 2 = Base.BINARY ∧ outputBase 4 = Base.DECIMAL ∧ outputBase 0 = Base.HEX := by
  decide

/-- C14: in every state with nothing pending (`state` 0, 2 or 4), the key `'o'`
keeps the loop going, maps the output base hexadecimal to binary, binary to
decimal and decimal to hexadecimal, and leaves the bitboard, the cursor and the
pending flag unchanged; three such keys in a row return the state they started
from. -/
theorem output_base_cycles (ev : Event) (m : Machine) (hkey : ev.input = key 'o')
    (hst : m.state = 0 ∨ m.state = 2 ∨ m.state = 4) :
    ∃ m1, mainStep ev m = some (Outcome.next m1) ∧
      m1.bitboard = m.bitboard ∧ m1.cursorPos = m.cursorPos ∧
      pendingDiagonal m1.state = pendingDiagonal m.state ∧
      (outputBase m.state = Base.HEX → outputBase m1.state = Base.BINARY) ∧
      (outputBase m.state = Base.BINARY → outputBase m1.state = Base.DECIMAL) ∧
      (outputBase m.state = Base.DECIMAL → outputBase m1.state = Base.HEX) ∧
      mainLoop m [ev, ev, ev] = some (Outcome.next m) := by
  obtain ⟨b, c, st⟩ := m
  have n0 : (0 : Nat) &&& 1 = 0 := by decide
  have n2 : (2 : Nat) &&& 1 = 0 := by decide
  have n4 : (4 : Nat) &&& 1 = 0 := by decide
  have s0 := mainStep_cycle ev ⟨b, c, 0⟩ n0 hkey
  have s2 := mainStep_cycle ev ⟨b, c, 2⟩ n2 hkey
  have s4 := mainStep_cycle ev ⟨b, c, 4⟩ n4 hkey
  obtain ⟨v0, v2, v4⟩ := cycleState_values
  simp only [v0, v2, v4] at s0 s2 s4
  obtain ⟨f0, f2, f4⟩ := cycle_facts
  simp only at hst
  rcases hst with rfl | rfl | rfl
  · exact ⟨_, s0, rfl, rfl, f0.1, f0.2.1, f0.2.2.1, f0.2.2.2, by simp [mainLoop, s0, s2, s4]⟩
  · exact ⟨_, s2, rfl, rfl, f2.1, f2.2.1, f2.2.2.1, f2.2.2.2, by simp [mainLoop, s0, s2, s4]⟩
  · exact ⟨_, s4, rfl, rfl, f4.1, f4.2.1, f4.2.2.1, f4.2.2.2, by simp [mainLoop, s0, s2, s4]⟩

theorem output_base_cycles_witness :
    ∃ m1, mainStep (press (key 'o')) { bitboard := 9, cursorPos := 3, state := 2 } =
        some (Outcome.next m1) ∧
      m1.bitboard = 9 ∧ m1.cursorPos = 3 ∧
      pendingDiagonal m1.state = pendingDiagonal 2 ∧
      (outputBase 2 = Base.HEX → outputBase m1.state = Base.BINARY) ∧
      (outputBase 2 = Base.BINARY → outputBase m1.state = Base.DECIMAL) ∧
      (outputBase 2 = Base.DECIMAL → outputBase m1.state = Base.HEX) ∧
      mainLoop { bitboard := 9, cursorPos := 3, state := 2 }
          [press (key 'o'), press (key 'o'), press (key 'o')] =
        some (Outcome.next { bitboard := 9, cursorPos := 3, state := 2 }) :=
  output_base_cycles (press (key 'o')) { bitboard := 9, cursorPos := 3, state := 2 } rfl
    (Or.inr (Or.inl rfl))

/-- C15: for every cursor in `[0,63]` with nothing pending, each navigation key
(arrow key or `h`, `j`, `k`, `l`) keeps the loop going, leaves the bitboard and
`state` as they are and moves the cursor by one square clamped at the edge:
left gives `cursor-1` if `cursor%8 > 0`, right `cursor+1` if `cursor%8 < 7`, up
`cursor-8` if `cursor >= 8`, down `cursor+8` if `cursor < 56`, else `cursor`.
Left and right keep the row, up and down keep the column. From the initial
state the keys toggle-bit, right three times, down twice, rank end with the
cursor at 19 and the bitboard 1 with the positions 16 to 23 flipped. -/
theorem navigation_clamped (ev : Event) (m : Machine) (hc : m.cursorPos < 64)
    (hn : m.state &&& 1 = 0) :
    (ev.input = KEY_LEFT ∨ ev.input = key 'h' →
      mainStep ev m = some (Outcome.next { m with
        cursorPos := if m.cursorPos % 8 > 0 then m.cursorPos - 1 else m.cursorPos })) ∧
    (ev.input = KEY_RIGHT ∨ ev.input = key 'l' →
      mainStep ev m = some (Outcome.next { m with
        cursorPos := if m.cursorPos % 8 < 7 then m.cursorPos + 1 else m.cursorPos })) ∧
    (ev.input = KEY_UP ∨ ev.input = key 'k' →
      mainStep ev m = some (Outcome.next { m with
        cursorPos := if m.cursorPos ≥ 8 then m.cursorPos - 8 else m.cursorPos })) ∧
    (ev.input = KEY_DOWN ∨ ev.input = key 'j' →
      mainStep ev m = some (Outcome.next { m with
        cursorPos := if m.cursorPos < 56 then m.cursorPos + 8 else m.cursorPos })) ∧
    row (if m.cursorPos % 8 > 0 then m.cursorPos - 1 else m.cursorPos) = row m.cursorPos ∧
    row (if m.cursorPos % 8 < 7 then m.cursorPos + 1 else m.cursorPos) = row m.cursorPos ∧
    col (if m.cursorPos ≥ 8 then m.cursorPos - 8 else m.cursorPos) = col m.cursorPos ∧
    col (if m.cursorPos < 56 then m.cursorPos + 8 else m.cursorPos) = col m.cursorPos ∧
    mainLoop initial [press (key ' ')] =
      some (Outcome.next { bitboard := 1, cursorPos := 0, state := 0 }) ∧
    mainLoop initial (List.map press
        [key ' ', KEY_RIGHT, KEY_RIGHT, KEY_RIGHT, KEY_DOWN, KEY_DOWN, key 'r']) =
      some (Outcome.next { bitboard := 1 ^^^ (0xFF <<< 16), cursorPos := 19, state := 0 }) := by
  obtain ⟨a1, a2, a3, a4, a5, a6, a7, a8⟩ := nav_arith m.cursorPos hc
  refine ⟨fun hk => ?_, fun hk => ?_, fun hk => ?_, fun hk => ?_, a5, a6, a7, a8,
    by decide, by decide⟩
  · rw [mainStep_left ev m hn hk]
    by_cases h : m.cursorPos % 8 > 0
    · simp only [if_pos h, a1 h]
    · simp only [if_neg h]
  · rw [mainStep_right ev m hn hk]
    by_cases h : m.cursorPos % 8 < 7
    · simp only [if_pos h, a2 h]
    · simp only [if_neg h]
  · rw [mainStep_up ev m hn hk]
    by_cases h : m.cursorPos > 7
    · have h8 : m.cursorPos ≥ 8 := h
      simp only [if_pos h, if_pos h8, a3 h]
    · have h8 : ¬ m.cursorPos ≥ 8 := h
      simp only [if_neg h, if_neg h8]
  · rw [mainStep_down ev m hn hk]
    by_cases h : m.cursorPos < 56
    · simp only [if_pos h, a4 h]
    · simp only [if_neg h]

theorem navigation_clamped_witness :
    mainStep (press KEY_LEFT) { bitboard := 7, cursorPos := 16, state := 4 } =
      some (Outcome.next { ({ bitboard := 7, cursorPos := 16, state := 4 } : Machine) with
        cursorPos := if 16 % 8 > 0 then 16 - 1 else 16 }) :=
  (navigation_clamped (press KEY_LEFT) { bitboard := 7, cursorPos := 16, state := 4 }
    (by decide) (by decide)).1 (Or.inl rfl)

/-- C16: cursor invariant. For every finite sequence of events and every
number `k`, the loop run from the initial state over the first `k` events is
defined and ends with the cursor in `[0,63]`. -/
theorem cursor_on_board (evs : List Event) (k : Nat) :
    ∃ o, mainLoop initial (evs.take k) = some o ∧ o.machine.cursorPos < 64 := by
  obtain ⟨o, ho, hinv⟩ := mainLoop_inv (evs.take k) initial inv_initial
  exact ⟨o, ho, hinv.2.1⟩

/-! ## Lemmas on the import -/

theorem clamp_eq_min (v : Nat) : (if v ≥ ULL then ULL - 1 else v) = min v (2 ^ 64 - 1) := by
  have hU : ULL = 2 ^ 64 := rfl
  split_ifs with h
  · rw [hU] at h ⊢; omega
  · rw [hU] at h; omega

/-- On a string that does not start with white space or a sign, `strtoull` in
base 2 or 10 reads the digits from the first character. -/
theorem strtoull_plain (s : List Char) (base : Nat) (hp : plainStart s) (h16 : base ≠ 16) :
    strtoull s base = min (parseDigits base s 0) (2 ^ 64 - 1) := by
  rw [← clamp_eq_min]
  cases s with
  | nil => simp [strtoull, h16]
  | cons c t =>
    obtain ⟨h0, h1, h2⟩ := hp c rfl
    have e1 : (some c : Option Char) ≠ some '-' := fun h => h1 (Option.some.inj h)
    have e2 : (some c : Option Char) ≠ some '+' := fun h => h2 (Option.some.inj h)
    simp [strtoull, List.dropWhile, h0, e1, e2, h16]

theorem paste_hex_min (t : List Char) :
    paste ('0' :: 'x' :: t) = min (parseDigits 16 t 0) (2 ^ 64 - 1) := by
  rw [paste_hex, clamp_eq_min]

/-- The three outcomes of the base detection. -/
theorem detectBase_cases (s : List Char) :
    (∃ t, s = '0' :: 'x' :: t ∧ detectBase s = 16) ∨
    (∃ t, s = '0' :: 'b' :: t ∧ detectBase s = 2) ∨
    (detectBase s = 10 ∧ ¬ ['0', 'x'] <+: s ∧ ¬ ['0', 'b'] <+: s) := by
  unfold detectBase
  split
  · exact Or.inl ⟨_, rfl, rfl⟩
  · exact Or.inr (Or.inl ⟨_, rfl, rfl⟩)
  · rename_i hx hb
    refine Or.inr (Or.inr ⟨rfl, ?_, ?_⟩)
    · rintro ⟨t, ht⟩; exact hx t ht.symm
    · rintro ⟨t, ht⟩; exact hb t ht.symm

theorem parseDigits_no_digit (base : Nat) (s : List Char) (acc : Nat)
    (h : ∀ c ∈ s, validDigit base c = false) : parseDigits base s acc = acc := by
  cases s with
  | nil => rfl
  | cons c t =>
    have hc := h c (by simp)
    rw [parseDigits_eq_foldl]
    simp [List.takeWhile, hc]

/-- Without a digit of the base in the string, `strtoull` in base 2 or 10
returns 0. -/
theorem strtoull_no_digit (s : List Char) (base : Nat) (h16 : base ≠ 16)
    (h : ∀ c ∈ s, validDigit base c = false) : strtoull s base = 0 := by
  have h1 : ∀ c ∈ s.dropWhile isSpace, validDigit base c = false :=
    fun c hc => h c ((List.dropWhile_sublist _).subset hc)
  have h2 : ∀ c ∈ (s.dropWhile isSpace).tail, validDigit base c = false :=
    fun c hc => h1 c (List.mem_of_mem_tail hc)
  have hU : ¬ (0 ≥ ULL) := by decide
  have hm : (ULL - 0) % ULL = 0 := by decide
  unfold strtoull
  simp only [h16, if_false]
  split_ifs <;> simp_all [parseDigits_no_digit]

theorem numericPrefixValue_hex (t : List Char) :
    numericPrefixValue 16 ('0' :: 'x' :: t) = parseDigits 16 t 0 := by
  have hpre : ['0', 'x'] <+: '0' :: 'x' :: t := ⟨t, rfl⟩
  simp [numericPrefixValue, hpre, parseDigits_eq_digitsValue]

theorem numericPrefixValue_binary (t : List Char) :
    numericPrefixValue 2 ('0' :: 'b' :: t) = parseDigits 2 t 0 := by
  have hpre : ['0', 'b'] <+: '0' :: 'b' :: t := ⟨t, rfl⟩
  simp [numericPrefixValue, hpre, parseDigits_eq_digitsValue]

theorem numericPrefixValue_decimal (s : List Char) :
    numericPrefixValue 10 s = parseDigits 10 s 0 := by
  simp [numericPrefixValue, parseDigits_eq_digitsValue]

theorem plainStart_zero (t : List Char) : plainStart ('0' :: t) := by
  intro c hc
  simp only [List.head?_cons, Option.some.injEq] at hc
  subst hc
  decide

/-- A text that starts with white space or a sign is detected as decimal. -/
theorem detectBase_of_not_plain (s : List Char) (h : ¬ plainStart s) : detectBase s = 10 := by
  rcases detectBase_cases s with ⟨t, rfl, -⟩ | ⟨t, rfl, -⟩ | ⟨hb, -, -⟩
  · exact absurd (plainStart_zero _) h
  · exact absurd (plainStart_zero _) h
  · exact hb

/-- In base 2 or 10 `strtoull` gives the value of the number behind white space
and sign. -/
theorem strtoull_eq_signedRunValue (s : List Char) (base : Nat) (h16 : base ≠ 16) :
    strtoull s base = signedRunValue base s := by
  have hU : ULL = 2 ^ 64 := rfl
  unfold strtoull signedRunValue
  simp only [h16, if_false, parseDigits_eq_digitsValue, hU]

theorem mainInput_eq (text : List Char) :
    mainInput text = strtoull (entryStart (text.take 19)) (detectBase (text.take 19)) := rfl

theorem validDigit_zero : validDigit 16 '0' = true ∧ validDigit 2 '0' = true := by decide

/-! ## The import: claim C17 -/

/-- C17 (as stated, fails on the code): the value read is not always the value
of the longest valid numeric prefix. The decimal text of `2 ^ 64` and the
hexadecimal text `0x10000000000000000` set the bitboard to `2 ^ 64 - 1`; the
text `-1`, which starts with no digit, sets it to `2 ^ 64 - 1`, and ` 12`,
which starts with a blank, sets it to 12. -/
theorem import_saturates_and_accepts_sign :
    paste "18446744073709551616".toList = 2 ^ 64 - 1 ∧
    numericPrefixValue (detectBase "18446744073709551616".toList)
      "18446744073709551616".toList = 2 ^ 64 ∧
    mainInput "0x10000000000000000".toList = 2 ^ 64 - 1 ∧
    numericPrefixValue (detectBase "0x10000000000000000".toList)
      "0x10000000000000000".toList = 2 ^ 64 ∧
    paste "-1".toList = 2 ^ 64 - 1 ∧
    numericPrefixValue (detectBase "-1".toList) "-1".toList = 0 ∧
    paste " 12".toList = 12 ∧
    numericPrefixValue (detectBase " 12".toList) " 12".toList = 0 := by
  decide

/-- C17 (amended): for every import text the import gives a 64-bit value. The
clipboard import starts reading at the first character of the text, the text
entry at the first of the 19 characters kept, or behind `0b` when they begin
so. When the character read first is neither white space nor a sign, the
bitboard is set to the value of the longest valid numeric prefix in the
detected base, limited to `2 ^ 64 - 1` (for the clipboard import unless the
text begins `0b`). When it is white space or a sign, white space is skipped,
one sign is accepted and the bitboard is set to the value of the run of digits
that follows, limited to `2 ^ 64 - 1` and negated modulo `2 ^ 64` behind a
minus sign. When the text holds no digit of the detected base, both imports
set the bitboard to 0. -/
theorem import_reads_leading_number (text : List Char) :
    paste text < 2 ^ 64 ∧ mainInput text < 2 ^ 64 ∧
    (plainStart text → ¬ ['0', 'b'] <+: text →
      paste text = min (numericPrefixValue (detectBase text) text) (2 ^ 64 - 1)) ∧
    (plainStart (entryStart (text.take 19)) →
      mainInput text =
        min (numericPrefixValue (detectBase (text.take 19)) (text.take 19)) (2 ^ 64 - 1)) ∧
    (¬ plainStart text → paste text = signedRunValue 10 text) ∧
    (¬ plainStart (entryStart (text.take 19)) →
      mainInput text =
        signedRunValue (detectBase (text.take 19)) (entryStart (text.take 19))) ∧
    ((∀ c ∈ text, validDigit (detectBase text) c = false) →
      paste text = 0 ∧ mainInput text = 0) := by
  refine ⟨strtoull_lt _ _, strtoull_lt _ _, fun hplain hnb => ?_, fun hplain => ?_,
    fun hnp => ?_, fun hnp => ?_, fun hno => ?_⟩
  · rcases detectBase_cases text with ⟨t, rfl, hb⟩ | ⟨t, rfl, hb⟩ | ⟨hb, -, -⟩
    · rw [hb, paste_hex_min, numericPrefixValue_hex]
    · exact absurd ⟨t, rfl⟩ hnb
    · rw [hb, numericPrefixValue_decimal]
      show strtoull text (detectBase text) = _
      rw [hb]
      exact strtoull_plain text 10 hplain (by decide)
  · rw [mainInput_eq]
    generalize text.take 19 = s at hplain ⊢
    rcases detectBase_cases s with ⟨t, rfl, hb⟩ | ⟨t, rfl, hb⟩ | ⟨hb, -, -⟩
    · have he : entryStart ('0' :: 'x' :: t) = '0' :: 'x' :: t := by
        unfold entryStart; rw [hb, if_neg (by decide)]
      rw [he, hb, numericPrefixValue_hex]
      exact paste_hex_min t ▸ (by rw [paste, hb])
    · have he : entryStart ('0' :: 'b' :: t) = t := by
        unfold entryStart; rw [hb, if_pos rfl]; rfl
      rw [he] at hplain ⊢
      rw [hb, numericPrefixValue_binary]
      exact strtoull_plain t 2 hplain (by decide)
    · have he : entryStart s = s := by
        unfold entryStart; rw [hb, if_neg (by decide)]
      rw [he] at hplain ⊢
      rw [hb, numericPrefixValue_decimal]
      exact strtoull_plain s 10 hplain (by decide)
  · show strtoull text (detectBase text) = _
    rw [detectBase_of_not_plain text hnp]
    exact strtoull_eq_signedRunValue text 10 (by decide)
  · rw [mainInput_eq]
    refine strtoull_eq_signedRunValue _ _ (fun h16 => hnp ?_)
    rcases detectBase_cases (text.take 19) with ⟨t, ht, hb⟩ | ⟨t, ht, hb⟩ | ⟨hb, -, -⟩
    · have he : entryStart (text.take 19) = '0' :: 'x' :: t := by
        unfold entryStart; rw [hb, if_neg (by decide)]; exact ht
      rw [he]; exact plainStart_zero _
    · rw [hb] at h16; exact absurd h16 (by decide)
    · rw [hb] at h16; exact absurd h16 (by decide)
  · have h10 : detectBase text = 10 := by
      rcases detectBase_cases text with ⟨t, rfl, hb⟩ | ⟨t, rfl, hb⟩ | ⟨hb, -, -⟩
      · have := hno '0' (by simp)
        rw [hb, validDigit_zero.1] at this
        exact absurd this (by decide)
      · have := hno '0' (by simp)
        rw [hb, validDigit_zero.2] at this
        exact absurd this (by decide)
      · exact hb
    rw [h10] at hno
    have hno19 : ∀ c ∈ text.take 19, validDigit 10 c = false :=
      fun c hc => hno c (List.mem_of_mem_take hc)
    have h19 : detectBase (text.take 19) = 10 := by
      rcases detectBase_cases (text.take 19) with ⟨t, ht, -⟩ | ⟨t, ht, -⟩ | ⟨hb, -, -⟩
      · have := hno19 '0' (by rw [ht]; simp)
        exact absurd this (by decide)
      · have := hno19 '0' (by rw [ht]; simp)
        exact absurd this (by decide)
      · exact hb
    refine ⟨?_, ?_⟩
    · show strtoull text (detectBase text) = 0
      rw [h10]; exact strtoull_no_digit text 10 (by decide) hno
    · rw [mainInput_eq]
      have he : entryStart (text.take 19) = text.take 19 := by
        unfold entryStart; rw [h19, if_neg (by decide)]
      rw [he, h19]
      exact strtoull_no_digit _ 10 (by decide) hno19

theorem import_reads_leading_number_witness :
    paste "1-2".toList =
      min (numericPrefixValue (detectBase "1-2".toList) "1-2".toList) (2 ^ 64 - 1) :=
  (import_reads_leading_number "1-2".toList).2.2.1 (by decide) (by decide)

/-! ## Lemmas on typed literals -/

theorem digitsValue_append_singleton (base : Nat) (l : List Char) (c : Char) :
    digitsValue base (l ++ [c]) = digitsValue base l * base + (digitVal c).getD 0 := by
  simp [digitsValue, List.foldl_append]

theorem bitChar_facts (b : Bool) :
    (digitVal (if b = true then '1' else '0')).getD 0 = (if b = true then 1 else 0) ∧
    validDigit 2 (if b = true then '1' else '0') = true ∧
    isSpace (if b = true then '1' else '0') = false ∧
    (if b = true then '1' else '0') ≠ '-' ∧ (if b = true then '1' else '0') ≠ '+' := by
  cases b <;> decide

/-- The first `n` characters written by `ulltostr` are the binary digits of
`bits / 2 ^ (64 - n)`. -/
theorem digitsValue_ulltostr_prefix (bits : Nat) (h : bits < 2 ^ 64) : ∀ n, n ≤ 64 →
    digitsValue 2 ((List.range n).map fun k => if bits.testBit (63 - k) then '1' else '0') =
      bits / 2 ^ (64 - n) := by
  intro n
  induction n with
  | zero =>
    intro _
    have h0 : bits / 2 ^ (64 - 0) = 0 := Nat.div_eq_of_lt h
    rw [h0]
    rfl
  | succ n ih =>
    intro hn
    rw [List.range_succ, List.map_append, List.map_singleton, digitsValue_append_singleton,
      ih (by omega), (bitChar_facts _).1]
    have e1 : 64 - n = (63 - n) + 1 := by omega
    have e2 : 64 - (n + 1) = 63 - n := by omega
    rw [e1, e2, Nat.testBit_to_div_mod, pow_succ, ← Nat.div_div_eq_div_mul]
    generalize bits / 2 ^ (63 - n) = x
    by_cases hx : x % 2 = 1
    · simp [hx]; omega
    · simp [hx]; omega

theorem detectBase_decimal (s : List Char) (hs : ∀ c ∈ s, ∃ d, d < 10 ∧ c = digitChar d) :
    detectBase s = 10 := by
  rcases detectBase_cases s with ⟨t, rfl, -⟩ | ⟨t, rfl, -⟩ | ⟨hb, -, -⟩
  · obtain ⟨d, hd, he⟩ := hs 'x' (by simp)
    exact absurd he.symm (digitChar_decimal d hd).2.2.2.1
  · obtain ⟨d, hd, he⟩ := hs 'b' (by simp)
    exact absurd he.symm (digitChar_decimal d hd).2.2.2.2
  · exact hb

/-- A text of at most 19 characters that is not detected as binary is read by
the text entry as the clipboard import reads it. -/
theorem mainInput_eq_paste (s : List Char) (hlen : s.length ≤ 19) (hb : detectBase s ≠ 2) :
    mainInput s = paste s := by
  have ht : s.take 19 = s := List.take_of_length_le hlen
  simp [mainInput, getnstr, paste, ht, hb]

theorem plainStart_binary (bits n : Nat) :
    plainStart ((List.range n).map fun k => if bits.testBit (63 - k) then '1' else '0') := by
  intro c hc
  cases n with
  | zero => simp at hc
  | succ n =>
    rw [List.range_succ_eq_map] at hc
    simp only [List.map_cons, List.head?_cons, Option.some.injEq] at hc
    subst hc
    exact ⟨(bitChar_facts _).2.2.1, (bitChar_facts _).2.2.2.1, (bitChar_facts _).2.2.2.2⟩

/-- Read in base 2, the first `n` characters written by `ulltostr` give
`bits / 2 ^ (64 - n)`. -/
theorem strtoull_ulltostr_prefix (bits : Nat) (h : bits < 2 ^ 64) (n : Nat) (hn : n ≤ 64) :
    strtoull ((List.range n).map fun k => if bits.testBit (63 - k) then '1' else '0') 2 =
      bits / 2 ^ (64 - n) := by
  rw [strtoull_plain _ 2 (plainStart_binary bits n) (by decide),
    parseDigits_of_all_valid 2 _ (by
      intro c hc
      obtain ⟨k, -, rfl⟩ := List.mem_map.mp hc
      exact (bitChar_facts _).2.1),
    digitsValue_ulltostr_prefix bits h n hn]
  have : bits / 2 ^ (64 - n) ≤ bits := Nat.div_le_self _ _
  omega

theorem take_ulltostr (bits n : Nat) (hn : n ≤ 64) :
    ((List.range 64).map fun k => if bits.testBit (63 - k) then '1' else '0').take n =
      (List.range n).map fun k => if bits.testBit (63 - k) then '1' else '0' := by
  rw [← List.map_take, List.take_range, Nat.min_eq_left hn]

/-! ## The text entry: claim C19 -/

/-- C19 (as stated, fails on the code): 19 characters do not hold the binary
literal of a 64-bit value, nor every decimal one. For `bits = 1` the literal
`0b` followed by the 64 characters of `ulltostr` sets the bitboard to 0, and
the 20 decimal digits of `0xFFFFFFFFFFFFFFFF` set it to 1844674407370955161. -/
theorem entry_keeps_19_characters :
    ulltostr 1 = some (List.replicate 63 '0' ++ ['1']) ∧
    mainInput ('0' :: 'b' :: (List.replicate 63 '0' ++ ['1'])) = 0 ∧
    fmtLlu 0xFFFFFFFFFFFFFFFF = "18446744073709551615".toList ∧
    mainInput "18446744073709551615".toList = 1844674407370955161 := by
  decide

/-- C19 (amended): for every 64-bit value `bits`, typing its hexadecimal
literal (`0x` and 16 digits) at the prompt of `'i'` sets the bitboard to
`bits`; typing its decimal digits does so when `bits < 10 ^ 19`; typing `0b`
and its 64 binary digits keeps 17 digits and sets the bitboard to
`bits / 2 ^ 47`, while the 64 binary digits typed at the prompt of `'I'` set it
to `bits`. -/
theorem entry_literals (bits : Nat) (h : bits < 2 ^ 64) :
    mainInput ('0' :: 'x' :: fmt016llx bits) = bits ∧
    (bits < 10 ^ 19 → mainInput (fmtLlu bits) = bits) ∧
    ∃ out, ulltostr bits = some out ∧
      mainInput ('0' :: 'b' :: out) = bits / 2 ^ 47 ∧ mainInputBinary out = bits := by
  have hU : ULL = 2 ^ 64 := rfl
  refine ⟨?_, fun h19 => ?_, _, ulltostr_eq bits, ?_, ?_⟩
  · have hlen := length_fmt016llx bits h
    rw [mainInput_eq_paste _ (by simp [hlen]) (by simp [detectBase]), paste_hex_min,
      parseDigits_fmt016llx bits h]
    omega
  · have hlen := length_digitsLoop_le 10 (by decide) 64 bits [] 19 (by decide) h19
    simp only [List.length_nil, Nat.add_zero] at hlen
    have hmem : ∀ c ∈ fmtLlu bits, ∃ d, d < 10 ∧ c = digitChar d := by
      intro c hc
      rcases mem_digitsLoop 10 (by decide) 64 bits [] c hc with h | h
      · simp at h
      · exact h
    have hval : parseDigits 10 (fmtLlu bits) 0 = bits := by
      have hlt : bits < 10 ^ 64 := lt_trans h19 (by decide)
      simp only [fmtLlu]
      rw [parseDigits_digitsLoop 10 (by decide) (by decide) 64 bits [] (by decide) hlt]
      rfl
    have hb : detectBase (fmtLlu bits) = 10 := detectBase_decimal _ hmem
    have hlen2 : (fmtLlu bits).length ≤ 19 := hlen
    have hne : detectBase (fmtLlu bits) ≠ 2 := by rw [hb]; decide
    rw [mainInput_eq_paste (fmtLlu bits) hlen2 hne, paste_decimal _ hmem, hval, clamp_eq_min]
    omega
  · have ht : (getnstr 19 ('0' :: 'b' ::
        (List.range 64).map fun k => if bits.testBit (63 - k) then '1' else '0')) =
        '0' :: 'b' :: (List.range 17).map fun k => if bits.testBit (63 - k) then '1' else '0' := by
      simp only [getnstr, List.take_succ_cons]
      rw [take_ulltostr bits 17 (by decide)]
    unfold mainInput
    simp only [ht]
    have hb : detectBase ('0' :: 'b' ::
        (List.range 17).map fun k => if bits.testBit (63 - k) then '1' else '0') = 2 := by
      simp [detectBase]
    rw [hb, if_pos rfl]
    exact strtoull_ulltostr_prefix bits h 17 (by decide)
  · have ht : getnstr 64 ((List.range 64).map fun k =>
        if bits.testBit (63 - k) then '1' else '0') =
        (List.range 64).map fun k => if bits.testBit (63 - k) then '1' else '0' := by
      simp only [getnstr]
      exact List.take_of_length_le (by simp)
    unfold mainInputBinary
    rw [ht, strtoull_ulltostr_prefix bits h 64 (by decide)]
    simp

theorem entry_literals_witness :
    mainInput ('0' :: 'x' :: fmt016llx 0xdeadbeef) = 0xdeadbeef ∧
    (0xdeadbeef < 10 ^ 19 → mainInput (fmtLlu 0xdeadbeef) = 0xdeadbeef) ∧
    ∃ out, ulltostr 0xdeadbeef = some out ∧
      mainInput ('0' :: 'b' :: out) = 0xdeadbeef / 2 ^ 47 ∧ mainInputBinary out = 0xdeadbeef :=
  entry_literals 0xdeadbeef (by decide)

end Bitboard
